import Mathlib

/-!
Verification of the Sourceplane Thin-CI planning engine.

This file shallowly embeds the Go sources of the thin-ci subsystem
(internal/thinci: detector.go, planner.go, types.go; the map-based
job types and executor) and proves properties of the embedding.

Conventions of the embedding:
  - Go `interface` values are the inductive `GoVal`.
  - Go `map[string]T` is an association list built with overwrite
    insertion (`Dict.insert`); Go map keys are unique, and all maps here
    are built through `Dict.insert`, which keeps keys unique.
  - Go map iteration order is unspecified; the embedding fixes insertion
    order.  Every theorem below is insensitive to that order.
  - `time.Now()` is passed in as an explicit `now : String` argument.
  - Errors are `Except String`; `fmt.Errorf` wrapping with `%w` becomes
    string concatenation of the wrapper text and the wrapped message.
-/

namespace Sourceplane

/-- Dynamic Go values (`interface` in the source).  The `steps`
constructor holds `(name, command, inputs)` triples standing for the
typed `[]ActionStep` case of the executor. -/
inductive GoVal where
  | str (s : String)
  | int (n : Int)
  | boolean (b : Bool)
  | strList (l : List String)
  | list (l : List GoVal)
  | map (m : List (String × GoVal))
  | steps (l : List (String × String × List (String × GoVal)))
  | null

/-- `map[string]any` from Go, as an association list with unique keys. -/
abbrev Dict := List (String × GoVal)

namespace Dict

/-- Lookup of a key (Go map read). -/
def get? (m : Dict) (k : String) : Option GoVal :=
  match m.find? (fun kv => kv.1 == k) with
  | some kv => some kv.2
  | none => none

/-- Overwrite insertion (Go map write): replaces the binding for `k`
in place when present, appends otherwise. -/
def insert (m : Dict) (k : String) (v : GoVal) : Dict :=
  match m with
  | [] => [(k, v)]
  | (k0, v0) :: rest =>
    if k0 == k then (k0, v) :: rest else (k0, v0) :: insert rest k v

/-- Overlay every binding of `src` onto `dst` (Go `for k, v := range src`
loop of writes). -/
def overlay (dst src : Dict) : Dict :=
  src.foldl (fun acc kv => insert acc kv.1 kv.2) dst

/-- Write only the keys of `src` that `dst` does not already bind
(the backfill loop `if _, exists := dst[k]; !exists`). -/
def backfill (dst src : Dict) : Dict :=
  src.foldl (fun acc kv => if (get? acc kv.1).isSome then acc else insert acc kv.1 kv.2) dst

theorem get?_nil (k : String) : get? [] k = none := rfl

theorem get?_cons (k0 : String) (v0 : GoVal) (l : Dict) (k : String) :
    get? ((k0, v0) :: l) k = if k0 = k then some v0 else get? l k := by
  by_cases h : k0 = k
  · subst h; simp [get?, List.find?]
  · have hb : (k0 == k) = false := by simp [h]
    simp [get?, List.find?, hb, h]

theorem insert_cons (k0 : String) (v0 : GoVal) (l : Dict) (k : String) (v : GoVal) :
    insert ((k0, v0) :: l) k v =
      if k0 = k then (k0, v) :: l else (k0, v0) :: insert l k v := by
  by_cases h : k0 = k <;> simp [insert, h]

theorem get?_insert_self (m : Dict) (k : String) (v : GoVal) :
    get? (insert m k v) k = some v := by
  induction m with
  | nil =>
    simp only [insert]
    rw [get?_cons, if_pos rfl]
  | cons kv rest ih =>
    obtain ⟨k0, v0⟩ := kv
    rw [insert_cons]
    by_cases h : k0 = k
    · rw [if_pos h, get?_cons, if_pos h]
    · rw [if_neg h, get?_cons, if_neg h]
      exact ih

theorem get?_insert_ne (m : Dict) (k k' : String) (v : GoVal) (h : k' ≠ k) :
    get? (insert m k v) k' = get? m k' := by
  induction m with
  | nil =>
    simp only [insert]
    rw [get?_cons, if_neg (fun hk : k = k' => h hk.symm), get?_nil]
  | cons kv rest ih =>
    obtain ⟨k0, v0⟩ := kv
    rw [insert_cons]
    by_cases h0 : k0 = k
    · have hne : ¬ k0 = k' := by rw [h0]; exact fun hk => h hk.symm
      rw [if_pos h0, get?_cons, if_neg hne, get?_cons, if_neg hne]
    · rw [if_neg h0, get?_cons, get?_cons, ih]

end Dict

/-! ## Data model (internal/models and internal/thinci/types.go) -/

/-- `models.Relationship`: a `{from, to, type}` triple.  `from` and
`type` are Lean keywords, hence the field names `src`, `dst`, `rtype`. -/
structure Relationship where
  src : String
  dst : String
  rtype : String

/-- `models.Component`: `{Name, Type, Spec}` (the deprecated `Inputs`
field is never read by the thin-ci code and is omitted). -/
structure Component where
  name : String
  ctype : String
  spec : Dict

/-- `models.Repository` (an intent document); only the fields read by
the detector and planner are carried. -/
structure Repository where
  metadataName : String
  components : List Component
  relationships : List Relationship

/-- `thinci.ActionStep`. -/
structure ActionStep where
  name : String
  command : String
  inputs : Dict

/-- `thinci.ProviderAction` (map-based variant, with `JobTemplate`). -/
structure ProviderAction where
  name : String
  description : String
  order : Int
  jobTemplate : Dict
  commands : List String
  preSteps : List ActionStep
  postSteps : List ActionStep
  inputs : Dict
  outputs : List String

/-- `thinci.ThinCIConfig`. -/
structure ThinCIConfig where
  actions : List ProviderAction
  defaults : Dict
  ordering : List String

/-- `thinci.ProviderMetadata`. -/
structure ProviderMetadata where
  name : String
  version : String
  thinCI : ThinCIConfig

/-- `thinci.ProviderRegistry`: a map from provider name to metadata. -/
abbrev ProviderRegistry := List (String × ProviderMetadata)

/-- `ProviderRegistry.GetProvider`: lookup with the
`provider not registered` error. -/
def getProvider (r : ProviderRegistry) (name : String) : Except String ProviderMetadata :=
  match r.find? (fun kv => kv.1 == name) with
  | some kv => .ok kv.2
  | none => .error ("provider \x27" ++ name ++ "\x27 not registered")

/-- `thinci.ComponentChange`. -/
structure ComponentChange where
  componentName : String
  provider : String
  componentType : String
  reason : String
  affectedPaths : List String

/-- `thinci.DependencyNode`. -/
structure DependencyNode where
  componentName : String
  provider : String
  actions : List String
  dependencies : List String

/-- `thinci.PlanRequest`. -/
structure PlanRequest where
  baseRef : String
  headRef : String
  changedFiles : List String
  repositoryPath : String
  intentFiles : List String
  target : String
  mode : String
  changedOnly : Bool
  environment : String
  providerOverrides : List (String × Dict)

/-- `thinci.JobMetadata` (typed planner output). -/
structure JobMetadata where
  runsOn : String
  permissions : List String
  environment : List (String × String)
  timeout : Int
  continueOnError : Bool

/-- `thinci.Job` as emitted by the planner in planner.go (typed
struct variant). -/
structure Job where
  id : String
  component : String
  provider : String
  action : String
  inputs : Dict
  dependsOn : List String
  metadata : JobMetadata

/-- `thinci.PlanMetadata`. -/
structure PlanMetadata where
  repository : String
  baseRef : String
  headRef : String
  changedFiles : List String
  timestamp : String
  environment : String

/-- `thinci.Plan`. -/
structure Plan where
  target : String
  mode : String
  metadata : PlanMetadata
  jobs : List Job

/-! ## Change detector (internal/thinci/detector.go) -/

/-- Go `strings.HasSuffix`, on character lists (the byte-level and
character-level readings agree on valid UTF-8). -/
def strHasSuffix (s suffix : String) : Bool :=
  List.isSuffixOf suffix.data s.data

/-- Go `strings.HasPrefix`, on character lists. -/
def strHasPrefix (s pre : String) : Bool :=
  List.isPrefixOf pre.data s.data

/-- Split a character list at every occurrence of `c` (Go
`strings.Split` with a one-character separator). -/
def splitOnChar (c : Char) : List Char → List (List Char)
  | [] => [[]]
  | x :: rest =>
    let r := splitOnChar c rest
    if x = c then [] :: r
    else
      match r with
      | h :: t => (x :: h) :: t
      | [] => [[x]]

/-- `extractProvider`: the text before the first `.` of a component
type (`strings.Split` never yields an empty slice, so the `len > 0`
guard of the source always takes the first part). -/
def extractProvider (componentType : String) : String :=
  match splitOnChar '.' componentType.data with
  | [] => ""
  | p :: _ => String.mk p

/-- `getEsc` from Go `path/filepath.Match`: one (possibly escaped)
class character; `none` is `ErrBadPattern`. -/
def globGetEsc (cs : List Char) : Option (Char × List Char) :=
  match cs with
  | [] => none
  | c :: rest =>
    if c = '-' ∨ c = ']' then none
    else if c = '\\' then
      match rest with
      | [] => none
      | e :: r2 => some (e, r2)
    else some (c, rest)

/-- Range parsing of a `[...]` character class (fuel is the input
length; each round consumes at least one character). -/
def globRanges (fuel : Nat) (cs : List Char) (acc : List (Char × Char)) :
    Option (List (Char × Char) × List Char) :=
  match fuel with
  | 0 => none
  | fuel + 1 =>
    match cs with
    | ']' :: rest => if acc.isEmpty then none else some (acc.reverse, rest)
    | _ =>
      match globGetEsc cs with
      | none => none
      | some (lo, cs1) =>
        match cs1 with
        | '-' :: cs2 =>
          match globGetEsc cs2 with
          | none => none
          | some (hi, cs3) => globRanges fuel cs3 ((lo, hi) :: acc)
        | _ => globRanges fuel cs1 ((lo, lo) :: acc)

/-- Parse the body of a `[...]` class: optional `^` negation, then the
ranges up to the closing `]`. -/
def globClass (cs : List Char) : Option (Bool × List (Char × Char) × List Char) :=
  match cs with
  | '^' :: rest =>
    match globRanges rest.length rest [] with
    | some (rs, rem) => some (true, rs, rem)
    | none => none
  | _ =>
    match globRanges cs.length cs [] with
    | some (rs, rem) => some (false, rs, rem)
    | none => none

/-- Whether character `c` is matched by a class. -/
def globClassHit (negated : Bool) (ranges : List (Char × Char)) (c : Char) : Bool :=
  (ranges.any (fun r => r.1 ≤ c ∧ c ≤ r.2)) != negated

/-- Go `path/filepath.Match` on character lists: `*` and `?` do not
cross the separator `/`; malformed patterns (`ErrBadPattern`) yield
`false`, exactly as the caller in detector.go discards the error. -/
def globMatch (pat s : List Char) : Bool :=
  match pat, s with
  | [], rest => rest.isEmpty
  | '*' :: ps, [] => globMatch ps []
  | '*' :: ps, c :: ss =>
    globMatch ps (c :: ss) || (if c = '/' then false else globMatch ('*' :: ps) ss)
  | '?' :: ps, c :: ss => if c = '/' then false else globMatch ps ss
  | '?' :: _, [] => false
  | '[' :: ps, c :: ss =>
    match globClass ps with
    | some (neg, ranges, rest) => if globClassHit neg ranges c then globMatch rest ss else false
    | none => false
  | '[' :: _, [] => false
  | '\\' :: pc :: ps, c :: ss => if c = pc then globMatch ps ss else false
  | '\\' :: _, _ => false
  | pc :: ps, c :: ss => if c = pc then globMatch ps ss else false
  | _ :: _, [] => false
termination_by (s.length, pat.length)

/-- `pathMatches`: exact match, directory-prefix match, or glob match. -/
def pathMatches (file pattern : String) : Bool :=
  file == pattern || strHasPrefix file (pattern ++ "/") || globMatch pattern.data file.data

/-- `filepath.Join` on the inputs used by the detector (no `.`/`..`
segments and no duplicate separators occur, where `Clean` is the
identity): drop empty parts, join with `/`. -/
def filepathJoin (parts : List String) : String :=
  String.intercalate "/" (parts.filter (fun p => p ≠ ""))

/-- `getConventionBasedPath`. -/
def getConventionBasedPath (componentName provider : String) : String :=
  if provider = "terraform" then filepathJoin ["terraform", componentName]
  else if provider = "helm" then filepathJoin ["helm", componentName]
  else filepathJoin [provider, componentName]

/-- `getComponentPaths`: provider-specific spec paths with the
convention-based fallback. -/
def getComponentPaths (component : Component) (provider : String) : List String :=
  let fromSpec : List String :=
    if provider = "terraform" then
      (match Dict.get? component.spec "module" with
       | some (.map m) =>
         match Dict.get? m "source" with
         | some (.str source) => if strHasPrefix source "terraform-" then [] else [source]
         | _ => []
       | _ => []) ++
      (match Dict.get? component.spec "path" with
       | some (.str path) => [path]
       | _ => [])
    else if provider = "helm" then
      (match Dict.get? component.spec "chart" with
       | some (.map m) =>
         match Dict.get? m "path" with
         | some (.str path) => [path]
         | _ => []
       | _ => []) ++
      (match Dict.get? component.spec "chartPath" with
       | some (.str p) => [p]
       | _ => []) ++
      (match Dict.get? component.spec "valuesPath" with
       | some (.str p) => [p]
       | _ => [])
    else []
  if fromSpec.isEmpty then
    let conventionPath := getConventionBasedPath component.name provider
    if conventionPath ≠ "" then [conventionPath] else []
  else fromSpec

/-- `getProviderPaths`. -/
def getProviderPaths (provider : String) : List String :=
  [filepathJoin ["providers", provider, "provider.yaml"],
   filepathJoin ["providers", provider, "schema.yaml"],
   filepathJoin [".sourceplane", "providers", provider]]

/-- `getSharedModulePaths`. -/
def getSharedModulePaths (component : Component) (provider : String) : List String :=
  if provider = "terraform" then
    (match Dict.get? component.spec "module" with
     | some (.map m) =>
       match Dict.get? m "source" with
       | some (.str source) =>
         if strHasPrefix source "./" ∨ strHasPrefix source "../" then [source] else []
       | _ => []
     | _ => []) ++ ["terraform/modules"]
  else if provider = "helm" then ["helm/charts"]
  else []

/-- The files among `changedFiles` that hit one of `patterns`, with the
same repetition the nested Go loops produce (outer loop over files,
inner loop over patterns, appending the file once per matching
pattern). -/
def matchingFiles (changedFiles patterns : List String) : List String :=
  changedFiles.flatMap (fun f => (patterns.filter (fun p => pathMatches f p)).map (fun _ => f))

/-- The intent-file predicate of the first detector loop
(`strings.HasSuffix` on the whole path). -/
def isIntentHit (f : String) : Bool :=
  strHasSuffix f "intent.yaml" || strHasSuffix f "sourceplane.yaml"

/-- `checkComponentAffected`.  The `intent` argument of the Go method is
never read and is omitted; likewise the detector field
`repositoryPath`.  The intent-file loop breaks on its first hit, so at
most one path is recorded by that rule. -/
def checkComponentAffected (component : Component) (changedFiles : List String) :
    Option ComponentChange :=
  let provider := extractProvider component.ctype
  let intentFile := changedFiles.find? isIntentHit
  let paths0 := match intentFile with | some f => [f] | none => []
  let reason0 := match intentFile with | some _ => "Intent definition changed" | none => ""
  let compHits := matchingFiles changedFiles (getComponentPaths component provider)
  let reason1 := if reason0 ≠ "" then reason0
    else if ¬ compHits.isEmpty then "Component files changed" else ""
  let provHits := matchingFiles changedFiles (getProviderPaths provider)
  let reason2 := if reason1 ≠ "" then reason1
    else if ¬ provHits.isEmpty then "Provider configuration changed" else ""
  let sharedHits := matchingFiles changedFiles (getSharedModulePaths component provider)
  let reason3 := if reason2 ≠ "" then reason2
    else if ¬ sharedHits.isEmpty then "Shared module changed" else ""
  let affectedPaths := paths0 ++ compHits ++ provHits ++ sharedHits
  if affectedPaths.isEmpty then none
  else some
    { componentName := component.name
      provider := provider
      componentType := component.ctype
      reason := reason3
      affectedPaths := affectedPaths }

/-- One step of the deduplicating accumulation in `DetectChanges`: a new
record is appended, a record for an already-seen component name only
merges its affected paths into the existing record. -/
def accumulateChange (changes : List ComponentChange) (component : Component)
    (changedFiles : List String) : List ComponentChange :=
  match checkComponentAffected component changedFiles with
  | none => changes
  | some change =>
    if changes.any (fun c => c.componentName == component.name) then
      changes.map (fun c =>
        if c.componentName == component.name then
          { c with affectedPaths := c.affectedPaths ++ change.affectedPaths }
        else c)
    else changes ++ [change]

/-- `DetectChanges`: every component of every intent is checked; records
are deduplicated by component name.  The Go map is materialised in
insertion order (map iteration order is unspecified in Go); no theorem
below depends on the order of the returned records.  The Go method
always returns a nil error, so the embedding is total. -/
def detectChanges (intents : List Repository) (changedFiles : List String) :
    List ComponentChange :=
  intents.foldl
    (fun acc intent =>
      intent.components.foldl (fun acc c => accumulateChange acc c changedFiles) acc)
    []

/-! ## Planner (internal/thinci/planner.go) -/

/-- `hasAction`. -/
def hasAction (actions : List ProviderAction) (name : String) : Bool :=
  actions.any (fun a => a.name == name)

/-- `determineActions`: mode-dependent action list filtered by provider
support. -/
def determineActions (mode : String) (provider : ProviderMetadata) : List String :=
  let supported := provider.thinCI.actions
  if mode = "plan" then
    (if hasAction supported "validate" then ["validate"] else []) ++
    (if hasAction supported "plan" then ["plan"] else [])
  else if mode = "apply" then
    (if hasAction supported "validate" then ["validate"] else []) ++
    (if hasAction supported "plan" then ["plan"] else []) ++
    (if hasAction supported "apply" then ["apply"] else [])
  else if mode = "destroy" then
    (if hasAction supported "destroy" then ["destroy"] else [])
  else []

/-- `extractDependencies`: intent-level relationships with type
`depends_on` or `uses`, then component-spec `relationships` entries
with a string `target`. -/
def extractDependencies (component : Component) (intents : List Repository) : List String :=
  (intents.flatMap (fun intent =>
    intent.relationships.filterMap (fun rel =>
      if rel.src = component.name ∧ (rel.rtype = "depends_on" ∨ rel.rtype = "uses")
      then some rel.dst else none))) ++
  (match Dict.get? component.spec "relationships" with
   | some (.list rels) =>
     rels.filterMap (fun r =>
       match r with
       | .map m =>
         match Dict.get? m "target" with
         | some (.str target) => some target
         | _ => none
       | _ => none)
   | _ => [])

/-- `findComponent`: first component with the given name across all
intents. -/
def findComponent (name : String) (intents : List Repository) : Option Component :=
  intents.findSome? (fun intent => intent.components.find? (fun c => c.name == name))

/-- `expandComponents`: one `DependencyNode` per change; aborts on an
unregistered provider or a change without a backing component. -/
def expandComponents (registry : ProviderRegistry) (changes : List ComponentChange)
    (intents : List Repository) (req : PlanRequest) :
    Except String (List DependencyNode) :=
  match changes with
  | [] => .ok []
  | change :: rest =>
    match getProvider registry change.provider with
    | .error e =>
      .error ("provider \x27" ++ change.provider ++ "\x27 not found: " ++ e)
    | .ok providerMeta =>
      match findComponent change.componentName intents with
      | none => .error ("component \x27" ++ change.componentName ++ "\x27 not found in intent")
      | some component =>
        match expandComponents registry rest intents req with
        | .error e => .error e
        | .ok nodes =>
          .ok ({ componentName := change.componentName
                 provider := change.provider
                 actions := determineActions req.mode providerMeta
                 dependencies := extractDependencies component intents } :: nodes)

/-- The component names of a node list. -/
def nodeNames (nodes : List DependencyNode) : List String :=
  nodes.map (fun n => n.componentName)

/-- The edge sequence `dependency → dependent` that the nested loops of
`buildDependencyGraph` run through, in their order: outer loop over
nodes, inner loop over each dependency, keeping an edge only when the
dependency is itself a node. -/
def planEdges (nodes : List DependencyNode) : List (String × String) :=
  nodes.flatMap (fun node =>
    node.dependencies.filterMap (fun dep =>
      if (nodeNames nodes).contains dep then some (dep, node.componentName) else none))

/-- Pointwise update of a total map (a Go map write; absent keys read as
the zero value, as in Go). -/
def updateFn {α : Type} (f : String → α) (k : String) (v : α) : String → α :=
  fun x => if x = k then v else f x

/-- Adjacency list and in-degree maps of `buildDependencyGraph`, built
by folding over the edge sequence. -/
def buildGraphMaps (es : List (String × String)) : (String → List String) × (String → Int) :=
  es.foldl
    (fun gd e => (updateFn gd.1 e.1 (gd.1 e.1 ++ [e.2]), updateFn gd.2 e.2 (gd.2 e.2 + 1)))
    (fun _ => [], fun _ => 0)

/-- First occurrences of each name, in order: the key set of the Go
`inDegree` map (initialised once per node name). -/
def uniqueKeys (l : List String) : List String :=
  l.foldl (fun acc x => if acc.contains x then acc else acc ++ [x]) []

/-- The neighbour-processing inner loop of Kahn: decrement each
neighbour, enqueue it when its in-degree reaches exactly zero. -/
def kahnProcess (ns : List String) (dq : (String → Int) × List String) :
    (String → Int) × List String :=
  ns.foldl
    (fun dq n =>
      let v := dq.1 n - 1
      (updateFn dq.1 n v, if v = 0 then dq.2 ++ [n] else dq.2))
    dq

/-- The drain loop of Kahn.  The fuel equals the node count; a name is
enqueued at most once (a degree strictly decreases through zero at most
once), so the loop in the source pops at most that many times and the
fuel never runs out. -/
def kahnLoop (graph : String → List String) :
    Nat → List String → (String → Int) → List String → List String
  | 0, _, _, sorted => sorted
  | _ + 1, [], _, sorted => sorted
  | fuel + 1, current :: rest, inDeg, sorted =>
    let dq := kahnProcess (graph current) (inDeg, rest)
    kahnLoop graph fuel dq.2 dq.1 (sorted ++ [current])

/-- The Go `nodeMap` lookup: the map is written in node order, so a
duplicate component name keeps the last node. -/
def nodeMapFind (nodes : List DependencyNode) (n : String) : Option DependencyNode :=
  (nodes.filter (fun x => x.componentName == n)).getLast?

/-- `buildDependencyGraph`: Kahn topological sort, with the cycle check
comparing the drained count against the node count. -/
def buildDependencyGraph (nodes : List DependencyNode) :
    Except String (List DependencyNode) :=
  let gd := buildGraphMaps (planEdges nodes)
  let seeds := (uniqueKeys (nodeNames nodes)).filter (fun n => gd.2 n = 0)
  let sortedNames := kahnLoop gd.1 nodes.length seeds gd.2 []
  let sorted := sortedNames.filterMap (nodeMapFind nodes)
  if sorted.length = nodes.length then .ok sorted
  else .error "circular dependency detected in component graph"

/-- `findNode`: first node with the given name. -/
def findNode (name : String) (nodes : List DependencyNode) : Option DependencyNode :=
  nodes.find? (fun n => n.componentName == name)

/-- `findProviderAction`. -/
def findProviderAct (provider : ProviderMetadata) (actionName : String) :
    Option ProviderAction :=
  provider.thinCI.actions.find? (fun a => a.name == actionName)

/-- `buildJobInputs`: `component` is written first, then provider
defaults, then `environment` (when non-empty), then the per-provider
request overrides. -/
def buildJobInputs (node : DependencyNode) (provider : ProviderMetadata)
    (req : PlanRequest) : Dict :=
  let inputs : Dict := Dict.insert [] "component" (.str node.componentName)
  let inputs := Dict.overlay inputs provider.thinCI.defaults
  let inputs :=
    if req.environment ≠ "" then Dict.insert inputs "environment" (.str req.environment)
    else inputs
  match req.providerOverrides.find? (fun kv => kv.1 == node.provider) with
  | some kv => Dict.overlay inputs kv.2
  | none => inputs

/-- `createJobMetadata`. -/
def createJobMetadata (target : String) (node : DependencyNode) (action : String) :
    JobMetadata :=
  let base : JobMetadata :=
    { runsOn := ""
      permissions := []
      environment :=
        [("SP_COMPONENT", node.componentName), ("SP_PROVIDER", node.provider),
         ("SP_ACTION", action)]
      timeout := 0
      continueOnError := false }
  if target = "github" then
    { base with runsOn := "ubuntu-latest", permissions := ["id-token", "contents"],
                timeout := 30 }
  else if target = "gitlab" then { base with runsOn := "docker", timeout := 30 }
  else base

/-- The jobs generated for one sorted node (the body of the outer loop
of `generateJobs`): a node whose provider lookup fails is skipped
(`continue`); the action at index `i > 0` depends on the previous
action of the same node, the action at index `0` depends on the last
action of each dependency that is a node with a non-empty action
list.  Per-action provider inputs are backfilled into the job inputs
only for keys not already present. -/
def jobsForNode (registry : ProviderRegistry) (nodes : List DependencyNode)
    (req : PlanRequest) (node : DependencyNode) : List Job :=
  match getProvider registry node.provider with
  | .error _ => []
  | .ok providerMeta =>
    node.actions.enum.map (fun ia =>
      let actionIdx := ia.1
      let action := ia.2
      let jobID := node.componentName ++ "-" ++ action
      let deps : List String :=
        if actionIdx > 0 then
          match node.actions.get? (actionIdx - 1) with
          | some prevAction => [node.componentName ++ "-" ++ prevAction]
          | none => []
        else
          node.dependencies.filterMap (fun depComp =>
            match findNode depComp nodes with
            | some depNode =>
              match depNode.actions.getLast? with
              | some lastAction => some (depComp ++ "-" ++ lastAction)
              | none => none
            | none => none)
      let inputs0 := buildJobInputs node providerMeta req
      let inputs :=
        match findProviderAct providerMeta action with
        | some pa => Dict.backfill inputs0 pa.inputs
        | none => inputs0
      { id := jobID
        component := node.componentName
        provider := node.provider
        action := action
        inputs := inputs
        dependsOn := deps
        metadata := createJobMetadata req.target node action })

/-- `generateJobs` over the sorted node list. -/
def generateJobs (registry : ProviderRegistry) (nodes : List DependencyNode)
    (req : PlanRequest) : List Job :=
  nodes.flatMap (jobsForNode registry nodes req)

/-- The plan metadata assembled by `GeneratePlan` and
`createEmptyPlan`; `now` stands for `time.Now().Format(time.RFC3339)`. -/
def planMetadataOf (req : PlanRequest) (now : String) : PlanMetadata :=
  { repository := req.repositoryPath
    baseRef := req.baseRef
    headRef := req.headRef
    changedFiles := req.changedFiles
    timestamp := now
    environment := req.environment }

/-- `createEmptyPlan`. -/
def createEmptyPlan (req : PlanRequest) (now : String) : Plan :=
  { target := req.target, mode := req.mode, metadata := planMetadataOf req now, jobs := [] }

/-- `GeneratePlan`: detection, expansion, topological sort, job
emission.  Change detection never fails (its Go error is always nil);
the other stage errors are wrapped exactly as by `fmt.Errorf`. -/
def generatePlan (registry : ProviderRegistry) (req : PlanRequest)
    (intents : List Repository) (now : String) : Except String Plan :=
  let changes := detectChanges intents req.changedFiles
  if req.changedOnly && changes.isEmpty then .ok (createEmptyPlan req now)
  else
    match expandComponents registry changes intents req with
    | .error e => .error ("component expansion failed: " ++ e)
    | .ok nodes =>
      match buildDependencyGraph nodes with
      | .error e => .error ("dependency graph construction failed: " ++ e)
      | .ok sortedNodes =>
        .ok { target := req.target
              mode := req.mode
              metadata := planMetadataOf req now
              jobs := generateJobs registry sortedNodes req }

/-! ## Further association-list lemmas -/

namespace Dict

theorem get?_overlay_of_not_key (dst src : Dict) (k : String)
    (h : ∀ v, (k, v) ∉ src) : get? (overlay dst src) k = get? dst k := by
  induction src generalizing dst with
  | nil => rfl
  | cons kv rest ih =>
    obtain ⟨k0, v0⟩ := kv
    have hk0 : k0 ≠ k := by
      intro he; exact h v0 (by simp [he])
    simp only [overlay, List.foldl_cons]
    have := ih (insert dst k0 v0) (fun v hv => h v (List.mem_cons_of_mem _ hv))
    simp only [overlay] at this
    rw [this, get?_insert_ne _ _ _ _ (fun he => hk0 he.symm)]

theorem get?_overlay_of_mem (dst src : Dict) (k : String) (v : GoVal)
    (hnd : (src.map Prod.fst).Nodup) (h : (k, v) ∈ src) :
    get? (overlay dst src) k = some v := by
  induction src generalizing dst with
  | nil => simp at h
  | cons kv rest ih =>
    obtain ⟨k0, v0⟩ := kv
    simp only [List.map_cons, List.nodup_cons] at hnd
    simp only [overlay, List.foldl_cons]
    rcases List.mem_cons.mp h with heq | hmem
    · rw [Prod.mk.injEq] at heq
      obtain ⟨hk, hv⟩ := heq
      subst hk; subst hv
      have hnot : ∀ u, (k, u) ∉ rest := by
        intro u hu
        exact hnd.1 (by simpa using List.mem_map_of_mem Prod.fst hu)
      have := get?_overlay_of_not_key (insert dst k v) rest k hnot
      simp only [overlay] at this
      rw [this, get?_insert_self]
    · have := ih (insert dst k0 v0) hnd.2 hmem
      simpa only [overlay] using this

theorem get?_backfill_eq (dst src : Dict) (k : String) :
    get? (backfill dst src) k =
      match get? dst k with
      | some v => some v
      | none => get? src k := by
  induction src generalizing dst with
  | nil => cases h : get? dst k <;> simp [backfill, get?_nil, h]
  | cons kv rest ih =>
    obtain ⟨k0, v0⟩ := kv
    simp only [backfill, List.foldl_cons]
    by_cases h0 : (get? dst k0).isSome
    · simp only [h0, if_true]
      have := ih dst
      simp only [backfill] at this
      rw [this]
      by_cases hk : k0 = k
      · subst hk
        obtain ⟨u, hu⟩ := Option.isSome_iff_exists.mp h0
        simp [hu, get?_cons]
      · rw [get?_cons, if_neg hk]
    · simp only [h0, if_false, Bool.false_eq_true]
      have := ih (insert dst k0 v0)
      simp only [backfill] at this
      rw [this]
      by_cases hk : k0 = k
      · subst hk
        have hnone : get? dst k0 = none := Option.not_isSome_iff_eq_none.mp (by simpa using h0)
        rw [get?_insert_self, hnone, get?_cons, if_pos rfl]
      · rw [get?_insert_ne _ _ _ _ (fun he => hk he.symm), get?_cons, if_neg hk]

end Dict

/-! ## String-valued maps (Go `map[string]string`) -/

/-- Go `map[string]string`, as an association list with unique keys. -/
abbrev SDict := List (String × String)

namespace SDict

/-- Lookup (Go map read). -/
def get? (m : SDict) (k : String) : Option String :=
  match m.find? (fun kv => kv.1 == k) with
  | some kv => some kv.2
  | none => none

/-- Overwrite insertion (Go map write). -/
def insert (m : SDict) (k v : String) : SDict :=
  match m with
  | [] => [(k, v)]
  | (k0, v0) :: rest =>
    if k0 == k then (k0, v) :: rest else (k0, v0) :: insert rest k v

theorem sget?_nil (k : String) : get? [] k = none := rfl

theorem sget?_cons (k0 v0 : String) (l : SDict) (k : String) :
    get? ((k0, v0) :: l) k = if k0 = k then some v0 else get? l k := by
  by_cases h : k0 = k
  · subst h; simp [get?, List.find?]
  · have hb : (k0 == k) = false := by simp [h]
    simp [get?, List.find?, hb, h]

theorem sinsert_cons (k0 v0 : String) (l : SDict) (k v : String) :
    insert ((k0, v0) :: l) k v =
      if k0 = k then (k0, v) :: l else (k0, v0) :: insert l k v := by
  by_cases h : k0 = k <;> simp [insert, h]

theorem sget?_insert_self (m : SDict) (k v : String) :
    get? (insert m k v) k = some v := by
  induction m with
  | nil =>
    simp only [insert]
    rw [sget?_cons, if_pos rfl]
  | cons kv rest ih =>
    obtain ⟨k0, v0⟩ := kv
    rw [sinsert_cons]
    by_cases h : k0 = k
    · rw [if_pos h, sget?_cons, if_pos h]
    · rw [if_neg h, sget?_cons, if_neg h]
      exact ih

theorem sget?_insert_ne (m : SDict) (k k' v : String) (h : k' ≠ k) :
    get? (insert m k v) k' = get? m k' := by
  induction m with
  | nil =>
    simp only [insert]
    rw [sget?_cons, if_neg (fun hk : k = k' => h hk.symm), sget?_nil]
  | cons kv rest ih =>
    obtain ⟨k0, v0⟩ := kv
    rw [sinsert_cons]
    by_cases h0 : k0 = k
    · have hne : ¬ k0 = k' := by rw [h0]; exact fun hk => h hk.symm
      rw [if_pos h0, sget?_cons, if_neg hne, sget?_cons, if_neg hne]
    · rw [if_neg h0, sget?_cons, sget?_cons, ih]

end SDict

/-! ## Executor (map-based thinci types and executor code) -/

/-- The map-based `thinci.Job` (`type Job map[string]any`). -/
abbrev JobMap := Dict

/-- `Job.GetID`. -/
def JobMap.GetID (j : JobMap) : String :=
  match Dict.get? j "id" with
  | some (.str s) => s
  | _ => ""

/-- `Job.GetComponent`. -/
def JobMap.GetComponent (j : JobMap) : String :=
  match Dict.get? j "component" with
  | some (.str s) => s
  | _ => ""

/-- `Job.GetProvider`. -/
def JobMap.GetProvider (j : JobMap) : String :=
  match Dict.get? j "provider" with
  | some (.str s) => s
  | _ => ""

/-- `Job.GetAction`. -/
def JobMap.GetAction (j : JobMap) : String :=
  match Dict.get? j "action" with
  | some (.str s) => s
  | _ => ""

/-- `Job.GetDependsOn`: a `[]string` value verbatim, a `[]interface`
value keeping its string elements, anything else the empty list. -/
def JobMap.GetDependsOn (j : JobMap) : List String :=
  match Dict.get? j "dependsOn" with
  | some (.strList l) => l
  | some (.list l) => l.filterMap (fun v => match v with | .str s => some s | _ => none)
  | _ => []

/-- The `getString` helper of the executor file. -/
def getStringOf (m : Dict) (key : String) : String :=
  match Dict.get? m key with
  | some (.str v) => v
  | _ => ""

/-- `extractSteps`: a typed `[]ActionStep` value verbatim; a
`[]interface` value keeping its map elements, each read through
`getString` with an optional `inputs` map; anything else empty. -/
def extractSteps (j : JobMap) (fieldName : String) : List ActionStep :=
  match Dict.get? j fieldName with
  | some (.steps l) => l.map (fun t => { name := t.1, command := t.2.1, inputs := t.2.2 })
  | some (.list l) =>
    l.filterMap (fun stepRaw =>
      match stepRaw with
      | .map stepMap =>
        some { name := getStringOf stepMap "name"
               command := getStringOf stepMap "command"
               inputs :=
                 match Dict.get? stepMap "inputs" with
                 | some (.map im) => im
                 | _ => [] }
      | _ => none)
  | _ => []

/-- `extractCommands`. -/
def extractCommands (j : JobMap) (fieldName : String) : List String :=
  match Dict.get? j fieldName with
  | some (.strList v) => v
  | some (.list v) => v.filterMap (fun c => match c with | .str s => some s | _ => none)
  | _ => []

/-- `extractInputs`. -/
def extractInputs (j : JobMap) (fieldName : String) : Dict :=
  match Dict.get? j fieldName with
  | some (.map m) => m
  | _ => []

/-- Insertion sort of key/value pairs by key (Go prints map keys in
sorted order under `%v`). -/
def sortPairsByKey : List (String × String) → List (String × String)
  | [] => []
  | p :: rest => insertSorted p (sortPairsByKey rest)
where
  insertSorted (p : String × String) : List (String × String) → List (String × String)
    | [] => [p]
    | q :: rest => if p.1 ≤ q.1 then p :: q :: rest else q :: insertSorted p rest

mutual

/-- `fmt.Sprintf` with `%v`, for the value shapes that can occur in a
job inputs map.  Scalars are exact; lists and maps follow the Go
rendering (`[a b]`, `map[k:v]`, keys sorted); a `[]ActionStep` value is
rendered by name and command only (such a value never reaches an
inputs map, which comes from a JSON object). -/
def goFormat : GoVal → String
  | .str s => s
  | .int n => toString n
  | .boolean b => if b then "true" else "false"
  | .strList l => "[" ++ String.intercalate " " l ++ "]"
  | .list l => "[" ++ String.intercalate " " (goFormatList l) ++ "]"
  | .map m =>
    "map[" ++
      String.intercalate " "
        ((sortPairsByKey (goFormatPairs m)).map (fun p => p.1 ++ ":" ++ p.2)) ++ "]"
  | .steps l =>
    "[" ++
      String.intercalate " " (l.map (fun t => "\x7b" ++ t.1 ++ " " ++ t.2.1 ++ "\x7d")) ++ "]"
  | .null => "<nil>"

def goFormatList : List GoVal → List String
  | [] => []
  | v :: rest => goFormat v :: goFormatList rest

def goFormatPairs : List (String × GoVal) → List (String × String)
  | [] => []
  | (k, v) :: rest => (k, goFormat v) :: goFormatPairs rest

end

/-- `buildTemplateContext`: core fields, then every input stringified,
then the fallback defaults only for keys not already present. -/
def buildTemplateContext (j : JobMap) (inputs : Dict) : SDict :=
  let ctx : SDict := SDict.insert [] "id" (JobMap.GetID j)
  let ctx := SDict.insert ctx "component" (JobMap.GetComponent j)
  let ctx := SDict.insert ctx "provider" (JobMap.GetProvider j)
  let ctx := SDict.insert ctx "action" (JobMap.GetAction j)
  let ctx := inputs.foldl (fun c kv => SDict.insert c kv.1 (goFormat kv.2)) ctx
  let ctx :=
    if (SDict.get? ctx "releaseName").isSome then ctx
    else SDict.insert ctx "releaseName" (JobMap.GetComponent j)
  let ctx :=
    if (SDict.get? ctx "namespace").isSome then ctx
    else SDict.insert ctx "namespace" "default"
  let ctx :=
    if (SDict.get? ctx "chartPath").isSome then ctx
    else SDict.insert ctx "chartPath" "."
  let ctx :=
    if (SDict.get? ctx "valuesPath").isSome then ctx
    else SDict.insert ctx "valuesPath" "values.yaml"
  if (SDict.get? ctx "timeout").isSome then ctx
  else SDict.insert ctx "timeout" "10m"

/-- Leading spaces and tabs inside a template action. -/
def dropActionSpaces (cs : List Char) : List Char :=
  match cs with
  | c :: rest => if c = ' ' ∨ c = '\t' then dropActionSpaces rest else cs
  | [] => []

/-- A template identifier: letters, digits and underscore. -/
def takeIdent (cs : List Char) : List Char × List Char :=
  match cs with
  | c :: rest =>
    if c.isAlphanum ∨ c = '_' then
      let (i, r) := takeIdent rest
      (c :: i, r)
    else ([], cs)
  | [] => ([], [])

theorem dropActionSpaces_length_le (cs : List Char) :
    (dropActionSpaces cs).length ≤ cs.length := by
  induction cs with
  | nil => simp [dropActionSpaces]
  | cons c rest ih =>
    rw [dropActionSpaces]
    split
    · exact Nat.le_succ_of_le ih
    · exact Nat.le_refl _

theorem takeIdent_length_le (cs : List Char) :
    (takeIdent cs).2.length ≤ cs.length := by
  induction cs with
  | nil => simp [takeIdent]
  | cons c rest ih =>
    rw [takeIdent]
    split
    · exact Nat.le_succ_of_le ih
    · exact Nat.le_refl _

/-- One pass of Go `text/template` parsing and execution for the
fragment of the language the providers use: literal text and
`\x7b\x7bwhitespace? . identifier whitespace?\x7d\x7d` actions.  A
malformed action is a parse error; a key absent from the context
prints `<no value>` (the default `missingkey` option on a map).  The
fuel is the character count, an upper bound on the steps taken. -/
def resolveChars (ctx : SDict) : Nat → List Char → Except String (List Char)
  | _, [] => .ok []
  | 0, _ :: _ => .error "template: parse error"
  | fuel + 1, '{' :: '{' :: rest =>
    match dropActionSpaces rest with
    | '.' :: rest2 =>
      match takeIdent rest2 with
      | ([], _) => .error "template: parse error"
      | (ident, rest3) =>
        match dropActionSpaces rest3 with
        | '}' :: '}' :: rest4 =>
          let value :=
            match SDict.get? ctx (String.mk ident) with
            | some v => v
            | none => "<no value>"
          match resolveChars ctx fuel rest4 with
          | .ok tail => .ok (value.data ++ tail)
          | .error e => .error e
        | _ => .error "template: parse error"
    | _ => .error "template: parse error"
  | fuel + 1, c :: rest =>
    match resolveChars ctx fuel rest with
    | .ok tail => .ok (c :: tail)
    | .error e => .error e

/-- `resolveTemplate`. -/
def resolveTemplate (templateStr : String) (ctx : SDict) : Except String String :=
  match resolveChars ctx templateStr.data.length templateStr.data with
  | .ok cs => .ok (String.mk cs)
  | .error e => .error e

/-- The resolved command of each step, in order, with the error wrapped
as in `executeSteps`; a non-dry run passes each resolved string to
`sh -c`. -/
def resolveSteps (steps : List ActionStep) (ctx : SDict) : Except String (List String) :=
  match steps with
  | [] => .ok []
  | step :: rest =>
    match resolveTemplate step.command ctx with
    | .error e =>
      .error ("failed to resolve template in step \x27" ++ step.name ++ "\x27: " ++ e)
    | .ok command =>
      match resolveSteps rest ctx with
      | .ok tail => .ok (command :: tail)
      | .error e => .error e

/-- The resolved command strings of `executeCommands`. -/
def resolveCommands (commands : List String) (ctx : SDict) : Except String (List String) :=
  match commands with
  | [] => .ok []
  | cmd :: rest =>
    match resolveTemplate cmd ctx with
    | .error e => .error ("failed to resolve template in command: " ++ e)
    | .ok command =>
      match resolveCommands rest ctx with
      | .ok tail => .ok (command :: tail)
      | .error e => .error e

/-- `ExecuteJob`, denotationally: the sequence of resolved command
strings the executor would hand to `sh -c`, in phase order (pre-steps,
main commands, post-steps), or its first template failure with the
message wrapping of the source.  Process exit codes and output
streaming are I/O and outside the embedding; a job that yields
`.ok []` runs no step and spawns no process, and the Go method then
returns nil (success). -/
def executeJob (j : JobMap) : Except String (List String) :=
  let preSteps := extractSteps j "preSteps"
  let commands := extractCommands j "commands"
  let postSteps := extractSteps j "postSteps"
  let inputs := extractInputs j "inputs"
  let ctx := buildTemplateContext j inputs
  match resolveSteps preSteps ctx with
  | .error e => .error ("pre-steps failed: " ++ e)
  | .ok pre =>
    match resolveCommands commands ctx with
    | .error e => .error ("commands failed: " ++ e)
    | .ok main =>
      match resolveSteps postSteps ctx with
      | .error e => .error ("post-steps failed: " ++ e)
      | .ok post => .ok (pre ++ main ++ post)

/-! ## Spec-modelled job emission with `jobTemplate` -/

/-- Modelled from the spec: the planner that merges a provider action
`jobTemplate` into the map-based job is not present in the sources
(only the `Job` map type, the `ProviderAction.JobTemplate` field and
the CLI caller are); per the spec, every top-level key of the
`jobTemplate` is copied verbatim into the emitted job except the
reserved keys `id, component, provider, action, dependsOn`, which are
always written by the planner and must not be overridden. -/
def emitTemplatedJob (jobTemplate : Dict) (id component provider action : String)
    (dependsOn : List String) : JobMap :=
  let reserved := ["id", "component", "provider", "action", "dependsOn"]
  let base := jobTemplate.foldl
    (fun acc kv => if reserved.contains kv.1 then acc else Dict.insert acc kv.1 kv.2) []
  let j := Dict.insert base "id" (.str id)
  let j := Dict.insert j "component" (.str component)
  let j := Dict.insert j "provider" (.str provider)
  let j := Dict.insert j "action" (.str action)
  Dict.insert j "dependsOn" (.strList dependsOn)

/-! ## Claim C4: determineActions mode policy -/

theorem hasAction_iff_mem (actions : List ProviderAction) (a : String) :
    hasAction actions a = decide (a ∈ actions.map ProviderAction.name) := by
  induction actions with
  | nil => simp [hasAction]
  | cons act rest ih =>
    simp only [hasAction, List.any_cons, List.map_cons, List.mem_cons]
    by_cases h : act.name = a
    · simp [h]
    · have hb : (act.name == a) = false := by simp [h]
      simp only [hb, Bool.false_or, List.mem_cons]
      rw [hasAction] at ih
      rw [ih]
      have : ¬ a = act.name := fun he => h he.symm
      simp [this]

/-- C4: `determineActions` maps the request mode to the action list of
that mode, keeping each name exactly when it is in the set of action
names the provider supports, in the stated order: `plan` gives
`[validate, plan]`, `apply` gives `[validate, plan, apply]`, `destroy`
gives `[destroy]`, and any other mode gives the empty list; in
particular (witnessed below) mode `plan` on a provider supporting only
validate and apply yields exactly `[validate]`. -/
theorem c4_determineActions_mode_policy (mode : String) (provider : ProviderMetadata) :
    determineActions mode provider =
      (if mode = "plan" then ["validate", "plan"]
       else if mode = "apply" then ["validate", "plan", "apply"]
       else if mode = "destroy" then ["destroy"]
       else []).filter
        (fun a => decide (a ∈ provider.thinCI.actions.map ProviderAction.name)) := by
  have hfil : ∀ L : List String,
      L.filter (fun a => decide (a ∈ provider.thinCI.actions.map ProviderAction.name)) =
        L.filter (fun a => hasAction provider.thinCI.actions a) :=
    fun L => List.filter_congr (fun a _ => (hasAction_iff_mem provider.thinCI.actions a).symm)
  unfold determineActions
  by_cases h1 : mode = "plan"
  · simp only [h1, if_true]
    rw [hfil]
    cases hv : hasAction provider.thinCI.actions "validate" <;>
      cases hp : hasAction provider.thinCI.actions "plan" <;>
        simp [List.filter, hv, hp]
  · by_cases h2 : mode = "apply"
    · simp only [h1, h2, if_true, if_false]
      rw [hfil]
      cases hv : hasAction provider.thinCI.actions "validate" <;>
        cases hp : hasAction provider.thinCI.actions "plan" <;>
          cases ha : hasAction provider.thinCI.actions "apply" <;>
            simp [List.filter, hv, hp, ha]
    · by_cases h3 : mode = "destroy"
      · simp only [h1, h2, h3, if_true, if_false]
        rw [hfil]
        cases hd : hasAction provider.thinCI.actions "destroy" <;>
          simp [List.filter, hd]
      · simp [h1, h2, h3]

/-! ## Claim C5: jobTemplate merge (spec-modelled) -/

namespace Dict

theorem get?_eq_none_of_not_key (l : Dict) (k : String)
    (h : ∀ v, (k, v) ∉ l) : get? l k = none := by
  induction l with
  | nil => rfl
  | cons kv rest ih =>
    obtain ⟨k0, v0⟩ := kv
    have hk0 : k0 ≠ k := fun he => h v0 (by simp [he])
    rw [get?_cons, if_neg hk0]
    exact ih (fun v hv => h v (List.mem_cons_of_mem _ hv))

theorem mem_of_get?_eq_some (l : Dict) (k : String) (v : GoVal)
    (h : get? l k = some v) : (k, v) ∈ l := by
  induction l with
  | nil => simp [get?_nil] at h
  | cons kv rest ih =>
    obtain ⟨k0, v0⟩ := kv
    rw [get?_cons] at h
    by_cases hk : k0 = k
    · rw [if_pos hk] at h
      subst hk
      simp at h
      simp [h]
    · rw [if_neg hk] at h
      exact List.mem_cons_of_mem _ (ih h)

theorem not_key_of_get?_eq_none (l : Dict) (k : String)
    (h : get? l k = none) : ∀ v, (k, v) ∉ l := by
  intro v hv
  induction l with
  | nil => simp at hv
  | cons kv rest ih =>
    obtain ⟨k0, v0⟩ := kv
    rw [get?_cons] at h
    rcases List.mem_cons.mp hv with heq | hmem
    · rw [Prod.mk.injEq] at heq
      rw [if_pos heq.1.symm] at h
      simp at h
    · by_cases hk : k0 = k
      · rw [if_pos hk] at h; simp at h
      · rw [if_neg hk] at h
        exact ih h hmem

/-- Lookup through the reserved-key-filtering fold of the spec-modelled
job emission. -/
theorem get?_foldl_insert_filtered (P : String → Bool) (l : Dict) (init : Dict) (k : String)
    (hnd : (l.map Prod.fst).Nodup) :
    get? (l.foldl (fun acc kv => if P kv.1 then acc else insert acc kv.1 kv.2) init) k =
      if P k then get? init k
      else
        match get? l k with
        | some v => some v
        | none => get? init k := by
  induction l generalizing init with
  | nil =>
    cases h : P k <;> simp [get?_nil, h]
  | cons kv rest ih =>
    obtain ⟨k0, v0⟩ := kv
    simp only [List.map_cons, List.nodup_cons] at hnd
    simp only [List.foldl_cons]
    rw [ih _ hnd.2]
    by_cases hPk : P k = true
    · simp only [hPk, if_true]
      by_cases hk : k0 = k
      · subst hk
        simp [hPk]
      · cases hP0 : P k0
        · simp only [hP0, Bool.false_eq_true, if_false]
          rw [get?_insert_ne _ _ _ _ (fun he => hk he.symm)]
        · simp [hP0]
    · simp only [hPk, if_false, Bool.false_eq_true]
      by_cases hk : k0 = k
      · subst hk
        have hP0 : P k0 = false := by simpa using hPk
        simp only [hP0, Bool.false_eq_true, if_false]
        have hrest : get? rest k0 = none :=
          get?_eq_none_of_not_key _ _
            (fun v hv => hnd.1 (by simpa using List.mem_map_of_mem Prod.fst hv))
        rw [hrest, get?_cons, if_pos rfl, get?_insert_self]
      · rw [get?_cons, if_neg hk]
        cases hP0 : P k0
        · simp only [hP0, Bool.false_eq_true, if_false]
          rw [get?_insert_ne _ _ _ _ (fun he => hk he.symm)]
        · simp [hP0]

end Dict

/-- C5 (spec-modelled): in the emitted map-based job, the reserved keys
`id, component, provider, action, dependsOn` always hold the values the
planner wrote, whatever the `jobTemplate` binds, and every other
top-level key of the `jobTemplate` appears in the job with its template
value verbatim.  The hypothesis that the template keys are duplicate
free holds of every Go map. -/
theorem c5_jobTemplate_merge (jobTemplate : Dict)
    (id component provider action : String) (dependsOn : List String)
    (hnd : (jobTemplate.map Prod.fst).Nodup) :
    Dict.get? (emitTemplatedJob jobTemplate id component provider action dependsOn) "id"
        = some (.str id) ∧
    Dict.get? (emitTemplatedJob jobTemplate id component provider action dependsOn)
        "component" = some (.str component) ∧
    Dict.get? (emitTemplatedJob jobTemplate id component provider action dependsOn)
        "provider" = some (.str provider) ∧
    Dict.get? (emitTemplatedJob jobTemplate id component provider action dependsOn)
        "action" = some (.str action) ∧
    Dict.get? (emitTemplatedJob jobTemplate id component provider action dependsOn)
        "dependsOn" = some (.strList dependsOn) ∧
    ∀ k v, k ∉ ["id", "component", "provider", "action", "dependsOn"] →
      Dict.get? jobTemplate k = some v →
      Dict.get? (emitTemplatedJob jobTemplate id component provider action dependsOn) k
        = some v := by
  unfold emitTemplatedJob
  refine ⟨?_, ?_, ?_, ?_, ?_, ?_⟩
  · rw [Dict.get?_insert_ne _ _ _ _ (by decide), Dict.get?_insert_ne _ _ _ _ (by decide),
      Dict.get?_insert_ne _ _ _ _ (by decide), Dict.get?_insert_ne _ _ _ _ (by decide),
      Dict.get?_insert_self]
  · rw [Dict.get?_insert_ne _ _ _ _ (by decide), Dict.get?_insert_ne _ _ _ _ (by decide),
      Dict.get?_insert_ne _ _ _ _ (by decide), Dict.get?_insert_self]
  · rw [Dict.get?_insert_ne _ _ _ _ (by decide), Dict.get?_insert_ne _ _ _ _ (by decide),
      Dict.get?_insert_self]
  · rw [Dict.get?_insert_ne _ _ _ _ (by decide), Dict.get?_insert_self]
  · rw [Dict.get?_insert_self]
  · intro k v hk hv
    have hk1 : k ≠ "id" := by intro he; exact hk (by simp [he])
    have hk2 : k ≠ "component" := by intro he; exact hk (by simp [he])
    have hk3 : k ≠ "provider" := by intro he; exact hk (by simp [he])
    have hk4 : k ≠ "action" := by intro he; exact hk (by simp [he])
    have hk5 : k ≠ "dependsOn" := by intro he; exact hk (by simp [he])
    rw [Dict.get?_insert_ne _ _ _ _ hk5, Dict.get?_insert_ne _ _ _ _ hk4,
      Dict.get?_insert_ne _ _ _ _ hk3, Dict.get?_insert_ne _ _ _ _ hk2,
      Dict.get?_insert_ne _ _ _ _ hk1]
    rw [Dict.get?_foldl_insert_filtered _ _ _ _ hnd]
    have hPk : (["id", "component", "provider", "action", "dependsOn"].contains k) = false := by
      simp [hk1, hk2, hk3, hk4, hk5]
    simp only [hPk, Bool.false_eq_true, if_false, hv]

/-- Witness for C5: a template binding `runsOn` and trying to override
`id` keeps its `runsOn` verbatim, and the planner id wins. -/
theorem c5_jobTemplate_merge_witness :
    Dict.get? (emitTemplatedJob [("runsOn", .str "ubuntu-latest"), ("id", .str "evil")]
        "web-plan" "web" "helm" "plan" ["web-validate"]) "id" = some (.str "web-plan") ∧
    Dict.get? (emitTemplatedJob [("runsOn", .str "ubuntu-latest"), ("id", .str "evil")]
        "web-plan" "web" "helm" "plan" ["web-validate"]) "runsOn"
      = some (.str "ubuntu-latest") := by
  have h := c5_jobTemplate_merge [("runsOn", .str "ubuntu-latest"), ("id", .str "evil")]
    "web-plan" "web" "helm" "plan" ["web-validate"] (by decide)
  exact ⟨h.1, h.2.2.2.2.2 "runsOn" (.str "ubuntu-latest") (by decide) rfl⟩

/-! ## Claim C10: totality of the executor accessors -/

/-- C10: the core-field accessors of the map-based job are total: each
returns the stored string when the key holds a string and the empty
string otherwise; `GetDependsOn` returns the stored or converted list
and is empty for an absent or ill-typed key; the step, command and
inputs extractions are empty for absent or ill-typed fields; and
`ExecuteJob` on a job binding none of `preSteps`, `commands`,
`postSteps` resolves and spawns nothing and reports success. -/
theorem c10_job_accessors_total :
    (∀ j : JobMap,
      Dict.get? j "preSteps" = none → Dict.get? j "commands" = none →
      Dict.get? j "postSteps" = none → executeJob j = .ok []) ∧
    (∀ (j : JobMap) (s : String),
      Dict.get? j "id" = some (.str s) → JobMap.GetID j = s) ∧
    (∀ j : JobMap, (∀ s, Dict.get? j "id" ≠ some (.str s)) → JobMap.GetID j = "") ∧
    (∀ (j : JobMap) (s : String),
      Dict.get? j "component" = some (.str s) → JobMap.GetComponent j = s) ∧
    (∀ j : JobMap,
      (∀ s, Dict.get? j "component" ≠ some (.str s)) → JobMap.GetComponent j = "") ∧
    (∀ (j : JobMap) (s : String),
      Dict.get? j "provider" = some (.str s) → JobMap.GetProvider j = s) ∧
    (∀ j : JobMap,
      (∀ s, Dict.get? j "provider" ≠ some (.str s)) → JobMap.GetProvider j = "") ∧
    (∀ (j : JobMap) (s : String),
      Dict.get? j "action" = some (.str s) → JobMap.GetAction j = s) ∧
    (∀ j : JobMap,
      (∀ s, Dict.get? j "action" ≠ some (.str s)) → JobMap.GetAction j = "") ∧
    (∀ (j : JobMap) (l : List String),
      Dict.get? j "dependsOn" = some (.strList l) → JobMap.GetDependsOn j = l) ∧
    (∀ j : JobMap,
      (∀ l, Dict.get? j "dependsOn" ≠ some (.strList l)) →
      (∀ l, Dict.get? j "dependsOn" ≠ some (.list l)) → JobMap.GetDependsOn j = []) ∧
    (∀ (j : JobMap) (f : String),
      (∀ l, Dict.get? j f ≠ some (.steps l)) →
      (∀ l, Dict.get? j f ≠ some (.list l)) → extractSteps j f = []) ∧
    (∀ (j : JobMap) (f : String),
      (∀ l, Dict.get? j f ≠ some (.strList l)) →
      (∀ l, Dict.get? j f ≠ some (.list l)) → extractCommands j f = []) ∧
    (∀ (j : JobMap) (f : String),
      (∀ m, Dict.get? j f ≠ some (.map m)) → extractInputs j f = []) := by
  refine ⟨?_, ?_, ?_, ?_, ?_, ?_, ?_, ?_, ?_, ?_, ?_, ?_, ?_, ?_⟩
  · intro j hpre hcmd hpost
    simp only [executeJob, extractSteps, extractCommands, hpre, hcmd, hpost]
    simp [resolveSteps, resolveCommands]
  · intro j s h; simp [JobMap.GetID, h]
  · intro j h
    unfold JobMap.GetID
    cases hg : Dict.get? j "id" with
    | none => rfl
    | some v => cases v <;> first | rfl | exact absurd hg (h _)
  · intro j s h; simp [JobMap.GetComponent, h]
  · intro j h
    unfold JobMap.GetComponent
    cases hg : Dict.get? j "component" with
    | none => rfl
    | some v => cases v <;> first | rfl | exact absurd hg (h _)
  · intro j s h; simp [JobMap.GetProvider, h]
  · intro j h
    unfold JobMap.GetProvider
    cases hg : Dict.get? j "provider" with
    | none => rfl
    | some v => cases v <;> first | rfl | exact absurd hg (h _)
  · intro j s h; simp [JobMap.GetAction, h]
  · intro j h
    unfold JobMap.GetAction
    cases hg : Dict.get? j "action" with
    | none => rfl
    | some v => cases v <;> first | rfl | exact absurd hg (h _)
  · intro j l h; simp [JobMap.GetDependsOn, h]
  · intro j h1 h2
    unfold JobMap.GetDependsOn
    cases hg : Dict.get? j "dependsOn" with
    | none => rfl
    | some v =>
      cases v <;> first | rfl | exact absurd hg (h1 _) | exact absurd hg (h2 _)
  · intro j f h1 h2
    unfold extractSteps
    cases hg : Dict.get? j f with
    | none => rfl
    | some v =>
      cases v <;> first | rfl | exact absurd hg (h1 _) | exact absurd hg (h2 _)
  · intro j f h1 h2
    unfold extractCommands
    cases hg : Dict.get? j f with
    | none => rfl
    | some v =>
      cases v <;> first | rfl | exact absurd hg (h1 _) | exact absurd hg (h2 _)
  · intro j f h
    unfold extractInputs
    cases hg : Dict.get? j f with
    | none => rfl
    | some v => cases v <;> first | rfl | exact absurd hg (h _)

/-- Witness for C10: the empty job executes no step and succeeds, and
its accessors return the zero values. -/
theorem c10_job_accessors_total_witness :
    executeJob [] = .ok [] ∧ JobMap.GetID [] = "" ∧ JobMap.GetDependsOn [] = [] := by
  refine ⟨c10_job_accessors_total.1 [] rfl rfl rfl,
    c10_job_accessors_total.2.2.1 [] ?_,
    c10_job_accessors_total.2.2.2.2.2.2.2.2.2.2.1 [] ?_ ?_⟩ <;>
  · intro x h
    simp [Dict.get?_nil] at h

/-! ## Claim C9: executor template resolution -/

namespace SDict

theorem get?_ctxfold_of_not_key (inputs : Dict) (init : SDict) (k : String)
    (h : ∀ v, (k, v) ∉ inputs) :
    get? (inputs.foldl (fun c kv => insert c kv.1 (goFormat kv.2)) init) k = get? init k := by
  induction inputs generalizing init with
  | nil => rfl
  | cons kv rest ih =>
    obtain ⟨k0, v0⟩ := kv
    have hk0 : k0 ≠ k := fun he => h v0 (by simp [he])
    simp only [List.foldl_cons]
    rw [ih _ (fun v hv => h v (List.mem_cons_of_mem _ hv)),
      sget?_insert_ne _ _ _ _ (fun he => hk0 he.symm)]

theorem get?_ctxfold_of_mem (inputs : Dict) (init : SDict) (k : String) (v : GoVal)
    (hnd : (inputs.map Prod.fst).Nodup) (h : (k, v) ∈ inputs) :
    get? (inputs.foldl (fun c kv => insert c kv.1 (goFormat kv.2)) init) k
      = some (goFormat v) := by
  induction inputs generalizing init with
  | nil => simp at h
  | cons kv rest ih =>
    obtain ⟨k0, v0⟩ := kv
    simp only [List.map_cons, List.nodup_cons] at hnd
    simp only [List.foldl_cons]
    rcases List.mem_cons.mp h with heq | hmem
    · rw [Prod.mk.injEq] at heq
      obtain ⟨hk, hv⟩ := heq
      subst hk; subst hv
      rw [get?_ctxfold_of_not_key _ _ _
          (fun u hu => hnd.1 (by simpa using List.mem_map_of_mem Prod.fst hu)),
        sget?_insert_self]
    · exact ih _ hnd.2 hmem

/-- A conditional fallback insertion of a different key leaves a lookup
unchanged. -/
theorem get?_condInsert_ne (ctx : SDict) (key v k : String) (h : k ≠ key) :
    get? (if (get? ctx key).isSome then ctx else insert ctx key v) k = get? ctx k := by
  split
  · rfl
  · rw [sget?_insert_ne _ _ _ _ h]

/-- A conditional fallback insertion for an absent key yields the
fallback value. -/
theorem get?_condInsert_self (ctx : SDict) (key v : String) (h : get? ctx key = none) :
    get? (if (get? ctx key).isSome then ctx else insert ctx key v) key = some v := by
  rw [h]
  simp only [Option.isSome_none, Bool.false_eq_true, if_false]
  rw [sget?_insert_self]

/-- A conditional fallback insertion never disturbs a key the context
already binds (whether or not it is the inserted key). -/
theorem get?_condInsert_any (ctx : SDict) (key v k w : String)
    (h : get? ctx k = some w) :
    get? (if (get? ctx key).isSome then ctx else insert ctx key v) k = some w := by
  by_cases hk : k = key
  · subst hk
    rw [h]
    simpa using h
  · rw [get?_condInsert_ne _ _ _ _ hk]
    exact h

end SDict

/-- The four core-field insertions of `buildTemplateContext` do not
bind any other key. -/
theorem get?_ctxcore_of_ne (j : JobMap) (k : String)
    (h1 : k ≠ "id") (h2 : k ≠ "component") (h3 : k ≠ "provider") (h4 : k ≠ "action") :
    SDict.get?
      (SDict.insert
        (SDict.insert
          (SDict.insert (SDict.insert [] "id" (JobMap.GetID j))
            "component" (JobMap.GetComponent j))
          "provider" (JobMap.GetProvider j))
        "action" (JobMap.GetAction j)) k = none := by
  rw [SDict.sget?_insert_ne _ _ _ _ h4, SDict.sget?_insert_ne _ _ _ _ h3,
    SDict.sget?_insert_ne _ _ _ _ h2, SDict.sget?_insert_ne _ _ _ _ h1, SDict.sget?_nil]

/-- The fallback-defaults lookup of the template context: when the
inputs map does not bind `key`, and `key` is one of the five fallback
keys, the context binds it to the stated default. -/
theorem get?_buildTemplateContext_fallback (j : JobMap) (inputs : Dict)
    (key : String)
    (hkey : key = "releaseName" ∨ key = "namespace" ∨ key = "chartPath" ∨
      key = "valuesPath" ∨ key = "timeout")
    (habs : ∀ v, (key, v) ∉ inputs) :
    SDict.get? (buildTemplateContext j inputs) key =
      some (if key = "releaseName" then JobMap.GetComponent j
        else if key = "namespace" then "default"
        else if key = "chartPath" then "."
        else if key = "valuesPath" then "values.yaml"
        else "10m") := by
  unfold buildTemplateContext
  rcases hkey with h | h | h | h | h <;> subst h
  · rw [SDict.get?_condInsert_ne _ _ _ _ (by decide),
      SDict.get?_condInsert_ne _ _ _ _ (by decide),
      SDict.get?_condInsert_ne _ _ _ _ (by decide),
      SDict.get?_condInsert_ne _ _ _ _ (by decide),
      SDict.get?_condInsert_self _ _ _
        (by rw [SDict.get?_ctxfold_of_not_key _ _ _ habs,
              get?_ctxcore_of_ne j _ (by decide) (by decide) (by decide) (by decide)])]
    simp
  · rw [SDict.get?_condInsert_ne _ _ _ _ (by decide),
      SDict.get?_condInsert_ne _ _ _ _ (by decide),
      SDict.get?_condInsert_ne _ _ _ _ (by decide),
      SDict.get?_condInsert_self _ _ _ ?_]
    · simp
    · rw [SDict.get?_condInsert_ne _ _ _ _ (by decide),
        SDict.get?_ctxfold_of_not_key _ _ _ habs,
        get?_ctxcore_of_ne j _ (by decide) (by decide) (by decide) (by decide)]
  · rw [SDict.get?_condInsert_ne _ _ _ _ (by decide),
      SDict.get?_condInsert_ne _ _ _ _ (by decide),
      SDict.get?_condInsert_self _ _ _ ?_]
    · simp
    · rw [SDict.get?_condInsert_ne _ _ _ _ (by decide),
        SDict.get?_condInsert_ne _ _ _ _ (by decide),
        SDict.get?_ctxfold_of_not_key _ _ _ habs,
        get?_ctxcore_of_ne j _ (by decide) (by decide) (by decide) (by decide)]
  · rw [SDict.get?_condInsert_ne _ _ _ _ (by decide),
      SDict.get?_condInsert_self _ _ _ ?_]
    · simp
    · rw [SDict.get?_condInsert_ne _ _ _ _ (by decide),
        SDict.get?_condInsert_ne _ _ _ _ (by decide),
        SDict.get?_condInsert_ne _ _ _ _ (by decide),
        SDict.get?_ctxfold_of_not_key _ _ _ habs,
        get?_ctxcore_of_ne j _ (by decide) (by decide) (by decide) (by decide)]
  · rw [SDict.get?_condInsert_self _ _ _ ?_]
    · simp
    · rw [SDict.get?_condInsert_ne _ _ _ _ (by decide),
        SDict.get?_condInsert_ne _ _ _ _ (by decide),
        SDict.get?_condInsert_ne _ _ _ _ (by decide),
        SDict.get?_condInsert_ne _ _ _ _ (by decide),
        SDict.get?_ctxfold_of_not_key _ _ _ habs,
        get?_ctxcore_of_ne j _ (by decide) (by decide) (by decide) (by decide)]

/-- A job whose single command templates `releaseName` and `chartPath`
from explicit inputs (scenario of the claim). -/
def c9jobWithInputs : JobMap :=
  [("component", GoVal.str "web"),
   ("commands", GoVal.list [GoVal.str "helm template \x7b\x7b.releaseName\x7d\x7d \x7b\x7b.chartPath\x7d\x7d"]),
   ("inputs", GoVal.map [("releaseName", GoVal.str "my-app"), ("chartPath", GoVal.str "./c")])]

/-- The same job with `releaseName` absent from its inputs. -/
def c9jobNoRelease : JobMap :=
  [("component", GoVal.str "web"),
   ("commands", GoVal.list [GoVal.str "helm template \x7b\x7b.releaseName\x7d\x7d \x7b\x7b.chartPath\x7d\x7d"]),
   ("inputs", GoVal.map [("chartPath", GoVal.str "./c")])]

/-- C9: the template context holds the core job fields, then every
inputs key stringified (later layers win), then the fallback defaults
only for keys not already present (`releaseName` falling back to the
component name, `namespace` to `default`, `chartPath` to `.`,
`valuesPath` to `values.yaml`, `timeout` to `10m`); consequently the
command `helm template ((.releaseName)) ((.chartPath))` with inputs
`releaseName=my-app, chartPath=./c` executes as
`helm template my-app ./c`, and with `releaseName` absent it uses the
component name. -/
theorem c9_template_resolution :
    (∀ (j : JobMap) (inputs : Dict), (∀ v, ("releaseName", v) ∉ inputs) →
      SDict.get? (buildTemplateContext j inputs) "releaseName"
        = some (JobMap.GetComponent j)) ∧
    (∀ (j : JobMap) (inputs : Dict), (∀ v, ("namespace", v) ∉ inputs) →
      SDict.get? (buildTemplateContext j inputs) "namespace" = some "default") ∧
    (∀ (j : JobMap) (inputs : Dict), (∀ v, ("chartPath", v) ∉ inputs) →
      SDict.get? (buildTemplateContext j inputs) "chartPath" = some ".") ∧
    (∀ (j : JobMap) (inputs : Dict), (∀ v, ("valuesPath", v) ∉ inputs) →
      SDict.get? (buildTemplateContext j inputs) "valuesPath" = some "values.yaml") ∧
    (∀ (j : JobMap) (inputs : Dict), (∀ v, ("timeout", v) ∉ inputs) →
      SDict.get? (buildTemplateContext j inputs) "timeout" = some "10m") ∧
    (∀ (j : JobMap) (inputs : Dict) (k : String) (v : GoVal),
      (inputs.map Prod.fst).Nodup → (k, v) ∈ inputs →
      SDict.get? (buildTemplateContext j inputs) k = some (goFormat v)) ∧
    executeJob c9jobWithInputs = .ok ["helm template my-app ./c"] ∧
    executeJob c9jobNoRelease = .ok ["helm template web ./c"] := by
  refine ⟨?_, ?_, ?_, ?_, ?_, ?_, ?_, ?_⟩
  · intro j inputs habs
    have := get?_buildTemplateContext_fallback j inputs "releaseName" (by simp) habs
    simpa using this
  · intro j inputs habs
    have := get?_buildTemplateContext_fallback j inputs "namespace" (by simp) habs
    simpa using this
  · intro j inputs habs
    have := get?_buildTemplateContext_fallback j inputs "chartPath" (by simp) habs
    simpa using this
  · intro j inputs habs
    have := get?_buildTemplateContext_fallback j inputs "valuesPath" (by simp) habs
    simpa using this
  · intro j inputs habs
    have := get?_buildTemplateContext_fallback j inputs "timeout" (by simp) habs
    simpa using this
  · intro j inputs k v hnd hmem
    exact SDict.get?_condInsert_any _ _ _ _ _
      (SDict.get?_condInsert_any _ _ _ _ _
        (SDict.get?_condInsert_any _ _ _ _ _
          (SDict.get?_condInsert_any _ _ _ _ _
            (SDict.get?_condInsert_any _ _ _ _ _
              (SDict.get?_ctxfold_of_mem inputs _ k v hnd hmem)))))
  · rfl
  · rfl

/-- Witness for C9, at the empty job and empty inputs. -/
theorem c9_template_resolution_witness :
    SDict.get? (buildTemplateContext [] []) "releaseName"
      = some (JobMap.GetComponent []) ∧
    SDict.get? (buildTemplateContext [] []) "timeout" = some "10m" := by
  exact ⟨c9_template_resolution.1 [] [] (fun v => List.not_mem_nil _),
    c9_template_resolution.2.2.2.2.1 [] [] (fun v => List.not_mem_nil _)⟩

/-! ## Claim C7: the intent-changed rule of the detector -/

/-- The final path segment of a changed path (what the claim calls the
file name). -/
def fileName (p : String) : String :=
  match (splitOnChar '/' p.data).getLast? with
  | some s => String.mk s
  | none => ""

theorem checkComponentAffected_of_intentHit (comp : Component) (files : List String)
    (f : String) (hf : files.find? isIntentHit = some f) :
    ∃ ch, checkComponentAffected comp files = some ch ∧
      ch.componentName = comp.name ∧ ch.reason = "Intent definition changed" := by
  unfold checkComponentAffected
  rw [hf]
  refine ⟨_, rfl, rfl, ?_⟩
  simp

theorem checkComponentAffected_reason_of_no_intentHit (comp : Component)
    (files : List String) (hf : files.find? isIntentHit = none) :
    ∀ ch, checkComponentAffected comp files = some ch →
      ch.reason ≠ "Intent definition changed" := by
  intro ch hch
  simp only [checkComponentAffected, isIntentHit] at hch
  rw [hf] at hch
  simp only [] at hch
  split_ifs at hch <;>
    first
      | exact Option.noConfusion hch
      | (rw [Option.some.injEq] at hch
         subst hch
         simp)

theorem accumulate_preserves_name (acc : List ComponentChange) (c : Component)
    (files : List String) (name : String)
    (h : ∃ ch ∈ acc, ch.componentName = name) :
    ∃ ch ∈ accumulateChange acc c files, ch.componentName = name := by
  obtain ⟨ch, hmem, hname⟩ := h
  unfold accumulateChange
  cases checkComponentAffected c files with
  | none => exact ⟨ch, hmem, hname⟩
  | some change =>
    simp only []
    split
    · refine ⟨if ch.componentName == c.name then
        { ch with affectedPaths := ch.affectedPaths ++ change.affectedPaths } else ch, ?_, ?_⟩
      · have := List.mem_map_of_mem (fun c0 =>
          if c0.componentName == c.name then
            { c0 with affectedPaths := c0.affectedPaths ++ change.affectedPaths }
          else c0) hmem
        simpa using this
      · split <;> simpa using hname
    · exact ⟨ch, List.mem_append_left _ hmem, hname⟩

theorem accumulate_adds_name (acc : List ComponentChange) (c : Component)
    (files : List String) (ch0 : ComponentChange)
    (hcheck : checkComponentAffected c files = some ch0)
    (hname0 : ch0.componentName = c.name) :
    ∃ ch ∈ accumulateChange acc c files, ch.componentName = c.name := by
  unfold accumulateChange
  rw [hcheck]
  simp only []
  split
  · next hany =>
    obtain ⟨ch1, hm1, he1⟩ := List.any_eq_true.mp hany
    refine ⟨{ ch1 with affectedPaths := ch1.affectedPaths ++ ch0.affectedPaths }, ?_, ?_⟩
    · have := List.mem_map_of_mem (fun c0 =>
        if c0.componentName == c.name then
          { c0 with affectedPaths := c0.affectedPaths ++ ch0.affectedPaths }
        else c0) hm1
      simpa [he1] using this
    · simpa using he1
  · exact ⟨ch0, List.mem_append_right _ (by simp), hname0⟩

theorem accumulate_preserves_reasonP (P : String → Prop) (acc : List ComponentChange)
    (c : Component) (files : List String)
    (hacc : ∀ ch ∈ acc, P ch.reason)
    (hc : ∀ ch, checkComponentAffected c files = some ch → P ch.reason) :
    ∀ ch ∈ accumulateChange acc c files, P ch.reason := by
  intro ch hch
  unfold accumulateChange at hch
  cases hcheck : checkComponentAffected c files with
  | none => rw [hcheck] at hch; exact hacc ch hch
  | some change =>
    rw [hcheck] at hch
    simp only [] at hch
    split at hch
    · obtain ⟨ch1, hm1, he1⟩ := List.mem_map.mp hch
      have := hacc ch1 hm1
      rw [← he1]
      split <;> simpa using this
    · rcases List.mem_append.mp hch with hl | hr
      · exact hacc ch hl
      · simp only [List.mem_singleton] at hr
        rw [hr]
        exact hc change hcheck

/-- The nested detector folds flattened to one fold over all components
of all intents. -/
theorem detectChanges_eq_flat (intents : List Repository) (files : List String) :
    detectChanges intents files =
      (intents.flatMap (fun i => i.components)).foldl
        (fun acc c => accumulateChange acc c files) [] := by
  suffices h : ∀ (l : List Repository) (init : List ComponentChange),
      l.foldl (fun acc intent =>
        intent.components.foldl (fun acc c => accumulateChange acc c files) acc) init =
      (l.flatMap (fun i => i.components)).foldl
        (fun acc c => accumulateChange acc c files) init by
    exact h intents []
  intro l
  induction l with
  | nil => intro init; simp
  | cons intent rest ih =>
    intro init
    simp only [List.foldl_cons, List.flatMap_cons, List.foldl_append]
    exact ih _

theorem fold_preserves_name (files : List String) (name : String) :
    ∀ (l : List Component) (init : List ComponentChange),
      (∃ ch ∈ init, ch.componentName = name) →
      ∃ ch ∈ l.foldl (fun acc c => accumulateChange acc c files) init,
        ch.componentName = name := by
  intro l
  induction l with
  | nil => intro init h; simpa using h
  | cons c rest ih =>
    intro init h
    exact ih _ (accumulate_preserves_name init c files name h)

theorem fold_reasonP (P : String → Prop) (files : List String)
    (hc : ∀ (c : Component) ch, checkComponentAffected c files = some ch → P ch.reason) :
    ∀ (l : List Component) (init : List ComponentChange),
      (∀ ch ∈ init, P ch.reason) →
      ∀ ch ∈ l.foldl (fun acc c => accumulateChange acc c files) init, P ch.reason := by
  intro l
  induction l with
  | nil => intro init h; simpa using h
  | cons c rest ih =>
    intro init h
    exact ih _ (accumulate_preserves_reasonP P init c files h (hc c))

/-- C7 counterexample: a changed path ending in `intent.yaml` whose
file name (final path segment) is `my-intent.yaml` still marks the
component affected with reason `Intent definition changed`, because the
source tests `strings.HasSuffix`, not the file name. -/
theorem c7_counterexample :
    (∃ ch ∈ detectChanges
        [{ metadataName := "demo"
           components := [{ name := "c1", ctype := "helm.service", spec := [] }]
           relationships := [] }]
        ["deploy/my-intent.yaml"],
      ch.componentName = "c1" ∧ ch.reason = "Intent definition changed") ∧
    (∀ f ∈ ["deploy/my-intent.yaml"],
      fileName f ≠ "intent.yaml" ∧ fileName f ≠ "sourceplane.yaml") := by
  constructor
  · decide
  · decide

/-- C7, amended: a component change record carries the reason
`Intent definition changed` exactly when some changed path has
`intent.yaml` or `sourceplane.yaml` as a string suffix of the whole
path (so `deploy/my-intent.yaml` triggers it too, not only paths whose
final segment is the exact file name); when such a path is present,
every component of every loaded intent appears in the detector output
with that reason. -/
theorem c7_intent_rule_suffix (intents : List Repository) (files : List String) :
    ((∃ f ∈ files, isIntentHit f = true) →
      ∀ intent ∈ intents, ∀ comp ∈ intent.components,
        ∃ ch ∈ detectChanges intents files,
          ch.componentName = comp.name ∧ ch.reason = "Intent definition changed") ∧
    ((¬ ∃ f ∈ files, isIntentHit f = true) →
      ∀ ch ∈ detectChanges intents files, ch.reason ≠ "Intent definition changed") := by
  constructor
  · intro hex intent hintent comp hcomp
    have hsome : (files.find? isIntentHit).isSome := by
      rw [List.find?_isSome]
      obtain ⟨f, hf, hp⟩ := hex
      exact ⟨f, hf, hp⟩
    obtain ⟨f0, hf0⟩ := Option.isSome_iff_exists.mp hsome
    have hall : ∀ ch ∈ detectChanges intents files,
        ch.reason = "Intent definition changed" := by
      rw [detectChanges_eq_flat]
      refine fold_reasonP (fun r => r = "Intent definition changed") files ?_ _ []
        (fun ch hch => absurd hch (List.not_mem_nil ch))
      intro c ch hch
      obtain ⟨ch0, hch0, _, hr⟩ := checkComponentAffected_of_intentHit c files f0 hf0
      rw [hch0] at hch
      rw [Option.some.injEq] at hch
      rw [← hch]
      exact hr
    have hmem : ∃ ch ∈ detectChanges intents files, ch.componentName = comp.name := by
      rw [detectChanges_eq_flat]
      have hflat : comp ∈ intents.flatMap (fun i => i.components) :=
        List.mem_flatMap.mpr ⟨intent, hintent, hcomp⟩
      obtain ⟨l1, l2, hsplit⟩ := List.append_of_mem hflat
      rw [hsplit, List.foldl_append, List.foldl_cons]
      obtain ⟨ch0, hch0, hn0, _⟩ := checkComponentAffected_of_intentHit comp files f0 hf0
      exact fold_preserves_name files comp.name l2 _
        (accumulate_adds_name _ comp files ch0 hch0 hn0)
    obtain ⟨ch, hch, hname⟩ := hmem
    exact ⟨ch, hch, hname, hall ch hch⟩
  · intro hnone
    have hf : files.find? isIntentHit = none := by
      cases h : files.find? isIntentHit with
      | none => rfl
      | some f =>
        exact absurd ⟨f, List.mem_of_find?_eq_some h, List.find?_some h⟩ hnone
    rw [detectChanges_eq_flat]
    exact fold_reasonP (fun r => r ≠ "Intent definition changed") files
      (fun c ch hch => checkComponentAffected_reason_of_no_intentHit c files hf ch hch)
      _ [] (fun ch hch => absurd hch (List.not_mem_nil ch))

/-- Witness for C7: an exact `intent.yaml` change marks the single
component affected with the intent reason. -/
theorem c7_intent_rule_suffix_witness :
    ∃ ch ∈ detectChanges
        [{ metadataName := "d2"
           components := [{ name := "w1", ctype := "terraform.network", spec := [] }]
           relationships := [] }]
        ["intent.yaml"],
      ch.componentName = "w1" ∧ ch.reason = "Intent definition changed" := by
  have h := (c7_intent_rule_suffix
    [{ metadataName := "d2"
       components := [{ name := "w1", ctype := "terraform.network", spec := [] }]
       relationships := [] }]
    ["intent.yaml"]).1 (by decide)
  exact h _ (List.mem_singleton_self _) _ (List.mem_singleton_self _)

/-! ## Claim C8: components whose type lacks a dot -/

/-- A provider metadata record supporting a single `validate` action. -/
def c8prov : ProviderMetadata :=
  { name := "foo"
    version := "1"
    thinCI :=
      { actions :=
          [{ name := "validate", description := "", order := 1, jobTemplate := [],
             commands := [], preSteps := [], postSteps := [], inputs := [], outputs := [] }]
        defaults := []
        ordering := [] } }

/-- An intent with one component whose type has no dot. -/
def c8intent : Repository :=
  { metadataName := "i8"
    components := [{ name := "c8", ctype := "foo", spec := [] }]
    relationships := [] }

/-- A plan request over a changed intent file in plan mode. -/
def c8request : PlanRequest :=
  { baseRef := "main", headRef := "HEAD", changedFiles := ["intent.yaml"],
    repositoryPath := ".", intentFiles := [], target := "github", mode := "plan",
    changedOnly := true, environment := "", providerOverrides := [] }

/-- C8 counterexample: with the dot-less type `foo` and a provider
registered under the name `foo`, planning succeeds and consumes the
component into the job `c8-validate` — no `malformed intent` error is
raised anywhere in the pipeline. -/
theorem c8_counterexample :
    ("foo".data.contains '.') = false ∧
    (generatePlan [("foo", c8prov)] c8request [c8intent] "t0").toOption.map
      (fun p => p.jobs.map (fun j => j.id)) = some ["c8-validate"] :=
  ⟨by decide, rfl⟩

/-- C8, amended: a component type without a dot is not rejected as a
malformed intent; `extractProvider` returns the whole type string as
the provider name, planning proceeds normally when that provider is
registered (counterexample above), and when it is not registered the
expansion stage fails with the provider-not-found error, which
`GeneratePlan` surfaces wrapped as a component-expansion failure. -/
theorem c8_no_dot_type_not_rejected :
    (extractProvider "foo" = "foo") ∧
    (∀ (registry : ProviderRegistry) (change : ComponentChange)
        (rest : List ComponentChange) (intents : List Repository) (req : PlanRequest)
        (err : String),
      getProvider registry change.provider = .error err →
      expandComponents registry (change :: rest) intents req =
        .error ("provider \x27" ++ change.provider ++ "\x27 not found: " ++ err)) ∧
    (∀ (registry : ProviderRegistry) (req : PlanRequest) (intents : List Repository)
        (now e : String),
      expandComponents registry (detectChanges intents req.changedFiles) intents req
          = .error e →
      (req.changedOnly && (detectChanges intents req.changedFiles).isEmpty) = false →
      generatePlan registry req intents now =
        .error ("component expansion failed: " ++ e)) := by
  refine ⟨rfl, ?_, ?_⟩
  · intro registry change rest intents req err h
    simp [expandComponents, h]
  · intro registry req intents now e hexp hcond
    simp [generatePlan, hcond, hexp]

/-- Witness for C8: an unregistered dot-less provider name yields the
provider-not-found expansion error. -/
theorem c8_no_dot_type_not_rejected_witness :
    expandComponents []
        [{ componentName := "c8", provider := "foo", componentType := "foo",
           reason := "Intent definition changed", affectedPaths := ["intent.yaml"] }]
        [c8intent] c8request =
      .error ("provider \x27foo\x27 not found: provider \x27foo\x27 not registered") := by
  exact c8_no_dot_type_not_rejected.2.1 []
    { componentName := "c8", provider := "foo", componentType := "foo",
      reason := "Intent definition changed", affectedPaths := ["intent.yaml"] }
    [] [c8intent] c8request "provider \x27foo\x27 not registered" rfl

/-! ## Claim C6: the ordered merge of job inputs -/

/-- Lookup characterization of `buildJobInputs`: later write layers win,
and the layers are, from latest to earliest: request overrides, the
environment, provider defaults, the component name.  The duplicate-free
key hypotheses hold of every Go map. -/
theorem get?_buildJobInputs (node : DependencyNode) (provider : ProviderMetadata)
    (req : PlanRequest) (k : String)
    (hnd1 : (provider.thinCI.defaults.map Prod.fst).Nodup)
    (hov : ∀ kv, req.providerOverrides.find? (fun x => x.1 == node.provider) = some kv →
      (kv.2.map Prod.fst).Nodup) :
    Dict.get? (buildJobInputs node provider req) k =
      ((match req.providerOverrides.find? (fun x => x.1 == node.provider) with
        | some kv => Dict.get? kv.2 k
        | none => none) <|>
       (if k = "environment" ∧ req.environment ≠ "" then some (.str req.environment)
        else none) <|>
       Dict.get? provider.thinCI.defaults k <|>
       (if k = "component" then some (.str node.componentName) else none)) := by
  have h1 : Dict.get? (Dict.insert [] "component" (.str node.componentName)) k =
      (if k = "component" then some (.str node.componentName) else none) := by
    by_cases hk : k = "component"
    · subst hk; rw [Dict.get?_insert_self, if_pos rfl]
    · rw [Dict.get?_insert_ne _ _ _ _ hk, Dict.get?_nil, if_neg hk]
  have h2 : Dict.get? (Dict.overlay (Dict.insert [] "component" (.str node.componentName))
      provider.thinCI.defaults) k =
      (Dict.get? provider.thinCI.defaults k <|>
       (if k = "component" then some (.str node.componentName) else none)) := by
    cases hd : Dict.get? provider.thinCI.defaults k with
    | some v =>
      rw [Dict.get?_overlay_of_mem _ _ _ _ hnd1 (Dict.mem_of_get?_eq_some _ _ _ hd)]
      simp
    | none =>
      rw [Dict.get?_overlay_of_not_key _ _ _ (Dict.not_key_of_get?_eq_none _ _ hd), h1]
      simp
  set base2 := Dict.overlay (Dict.insert [] "component" (.str node.componentName))
    provider.thinCI.defaults with hbase2
  have h3 : Dict.get? (if req.environment ≠ "" then
        Dict.insert base2 "environment" (.str req.environment) else base2) k =
      ((if k = "environment" ∧ req.environment ≠ "" then some (.str req.environment)
        else none) <|>
       (Dict.get? provider.thinCI.defaults k <|>
        (if k = "component" then some (.str node.componentName) else none))) := by
    by_cases henv : req.environment ≠ ""
    · rw [if_pos henv]
      by_cases hk : k = "environment"
      · subst hk
        rw [Dict.get?_insert_self, if_pos ⟨rfl, henv⟩]
        simp
      · rw [Dict.get?_insert_ne _ _ _ _ hk, if_neg (fun hc => hk hc.1), h2]
        simp
    · rw [if_neg henv, if_neg (fun hc => henv hc.2), h2]
      simp
  set base3 := (if req.environment ≠ "" then
    Dict.insert base2 "environment" (.str req.environment) else base2) with hbase3
  cases hfind : req.providerOverrides.find? (fun x => x.1 == node.provider) with
  | none =>
    have hb : buildJobInputs node provider req = base3 := by
      unfold buildJobInputs
      rw [hfind]
    rw [hb, h3]
    simp
  | some kv =>
    have hb : buildJobInputs node provider req = Dict.overlay base3 kv.2 := by
      unfold buildJobInputs
      rw [hfind]
    rw [hb]
    cases ho : Dict.get? kv.2 k with
    | some v =>
      rw [Dict.get?_overlay_of_mem _ _ _ _ (hov kv hfind) (Dict.mem_of_get?_eq_some _ _ _ ho)]
      simp [ho]
    | none =>
      rw [Dict.get?_overlay_of_not_key _ _ _ (Dict.not_key_of_get?_eq_none _ _ ho), h3]
      simp [ho]

/-- The inputs merge in the order the claim states it: provider
defaults first, then the component name, then the environment, then the
request overrides, and finally per-action inputs only for keys not
already present.  Stated only to be compared with the source order. -/
def claimMergeInputsC6 (node : DependencyNode) (provider : ProviderMetadata)
    (req : PlanRequest) (actionInputs : Dict) : Dict :=
  let inputs := Dict.overlay [] provider.thinCI.defaults
  let inputs := Dict.insert inputs "component" (.str node.componentName)
  let inputs :=
    if req.environment ≠ "" then Dict.insert inputs "environment" (.str req.environment)
    else inputs
  let inputs :=
    match req.providerOverrides.find? (fun kv => kv.1 == node.provider) with
    | some kv => Dict.overlay inputs kv.2
    | none => inputs
  Dict.backfill inputs actionInputs

/-- Provider whose defaults bind the key `component` (and a timeout). -/
def c6prov : ProviderMetadata :=
  { name := "terraform"
    version := "1"
    thinCI :=
      { actions :=
          [{ name := "validate", description := "", order := 1, jobTemplate := [],
             commands := [], preSteps := [], postSteps := [],
             inputs := [("workspace", .str "default")], outputs := [] }]
        defaults := [("component", .str "X"), ("timeout", .int 1800)]
        ordering := [] } }

/-- Intent with the single component `c6`. -/
def c6intent : Repository :=
  { metadataName := "i6"
    components := [{ name := "c6", ctype := "terraform.module", spec := [] }]
    relationships := [] }

/-- Plan request with a workspace override for terraform. -/
def c6req : PlanRequest :=
  { baseRef := "main", headRef := "HEAD", changedFiles := ["intent.yaml"],
    repositoryPath := ".", intentFiles := [], target := "github", mode := "plan",
    changedOnly := true, environment := "",
    providerOverrides := [("terraform", [("workspace", .str "prod")])] }

/-- C6 counterexample: with a provider default for the key `component`,
the emitted job binds `component` to the default value `X` (the source
writes the component name first and overlays defaults on top), while
the merge order stated by the claim would bind it to the component name
`c6`. -/
theorem c6_counterexample :
    (generatePlan [("terraform", c6prov)] c6req [c6intent] "t").toOption.map
        (fun p => p.jobs.map (fun j => Dict.get? j.inputs "component")) =
      some [some (.str "X")] ∧
    Dict.get? (claimMergeInputsC6
        { componentName := "c6", provider := "terraform", actions := ["validate"],
          dependencies := [] } c6prov c6req [("workspace", .str "default")]) "component" =
      some (.str "c6") ∧
    GoVal.str "X" ≠ GoVal.str "c6" := by
  refine ⟨rfl, rfl, ?_⟩
  intro h
  injection h with h2
  exact absurd h2 (by decide)

/-- C6, amended: each emitted job input map is the ordered merge, later
overwriting earlier, of the component name first, then provider-level
defaults (so a provider default can overwrite the `component` key),
then the environment when non-empty, then the per-provider request
overrides, and finally the per-action inputs only for keys not already
set.  In particular an override still beats the per-action input for
the same key, and a provider default survives when nothing later
writes its key. -/
theorem c6_inputs_merge_order (registry : ProviderRegistry) (nodes : List DependencyNode)
    (req : PlanRequest) (node : DependencyNode) (pm : ProviderMetadata)
    (hpm : getProvider registry node.provider = .ok pm)
    (hnd1 : (pm.thinCI.defaults.map Prod.fst).Nodup)
    (hov : ∀ kv, req.providerOverrides.find? (fun x => x.1 == node.provider) = some kv →
      (kv.2.map Prod.fst).Nodup)
    (i : Nat) (hi : i < node.actions.length) :
    ∃ job, (jobsForNode registry nodes req node).get? i = some job ∧
      job.action = node.actions.get ⟨i, hi⟩ ∧
      ∀ k, Dict.get? job.inputs k =
        (((match req.providerOverrides.find? (fun x => x.1 == node.provider) with
           | some kv => Dict.get? kv.2 k
           | none => none) <|>
          (if k = "environment" ∧ req.environment ≠ "" then some (.str req.environment)
           else none) <|>
          Dict.get? pm.thinCI.defaults k <|>
          (if k = "component" then some (.str node.componentName) else none)) <|>
         (match findProviderAct pm (node.actions.get ⟨i, hi⟩) with
          | some pa => Dict.get? pa.inputs k
          | none => none)) := by
  unfold jobsForNode
  rw [hpm]
  simp only []
  have ha : node.actions[i]? = some (node.actions.get ⟨i, hi⟩) := by
    rw [List.getElem?_eq_getElem hi]
    rfl
  have hget : ∀ g : Nat × String → Job,
      (node.actions.enum.map g).get? i = some (g (i, node.actions.get ⟨i, hi⟩)) := by
    intro g
    rw [List.get?_eq_getElem?, List.getElem?_map, List.getElem?_enum, ha]
    rfl
  refine ⟨_, hget _, rfl, ?_⟩
  intro k
  show Dict.get? (match findProviderAct pm (node.actions.get ⟨i, hi⟩) with
    | some pa => Dict.backfill (buildJobInputs node pm req) pa.inputs
    | none => buildJobInputs node pm req) k = _
  have hbase := get?_buildJobInputs node pm req k hnd1 hov
  cases hfa : findProviderAct pm (node.actions.get ⟨i, hi⟩) with
  | none =>
    simp only []
    rw [hbase]
    simp
  | some pa =>
    simp only []
    rw [Dict.get?_backfill_eq]
    cases hB : Dict.get? (buildJobInputs node pm req) k with
    | some v =>
      rw [hB] at hbase
      rw [← hbase]
      simp
    | none =>
      rw [hB] at hbase
      rw [← hbase]
      simp

/-- Witness for C6: at the C6 scenario the override `workspace=prod`
beats the per-action input and the default `timeout=1800` survives. -/
theorem c6_inputs_merge_order_witness :
    ∃ job, (jobsForNode [("terraform", c6prov)]
        [{ componentName := "c6", provider := "terraform", actions := ["validate"],
           dependencies := [] }] c6req
        { componentName := "c6", provider := "terraform", actions := ["validate"],
          dependencies := [] }).get? 0 = some job ∧
      job.action = (["validate"] : List String).get ⟨0, by decide⟩ ∧
      ∀ k, Dict.get? job.inputs k =
        (((match c6req.providerOverrides.find? (fun x => x.1 == "terraform") with
           | some kv => Dict.get? kv.2 k
           | none => none) <|>
          (if k = "environment" ∧ c6req.environment ≠ "" then
            some (.str c6req.environment) else none) <|>
          Dict.get? c6prov.thinCI.defaults k <|>
          (if k = "component" then some (.str "c6") else none)) <|>
         (match findProviderAct c6prov ((["validate"] : List String).get ⟨0, by decide⟩) with
          | some pa => Dict.get? pa.inputs k
          | none => none)) := by
  exact c6_inputs_merge_order [("terraform", c6prov)]
    [{ componentName := "c6", provider := "terraform", actions := ["validate"],
       dependencies := [] }] c6req
    { componentName := "c6", provider := "terraform", actions := ["validate"],
      dependencies := [] } c6prov rfl (by decide)
    (by
      intro kv hkv
      injection hkv with h
      rw [← h]
      decide)
    0 (by decide)

/-! ## Kahn sort development (claims C1, C2, C3) -/

theorem buildGraphMaps_go (es : List (String × String)) (g : String → List String)
    (d : String → Int) (n : String) :
    ((es.foldl (fun gd e =>
        (updateFn gd.1 e.1 (gd.1 e.1 ++ [e.2]), updateFn gd.2 e.2 (gd.2 e.2 + 1))) (g, d)).1 n
      = g n ++ (es.filter (fun e => e.1 == n)).map Prod.snd) ∧
    ((es.foldl (fun gd e =>
        (updateFn gd.1 e.1 (gd.1 e.1 ++ [e.2]), updateFn gd.2 e.2 (gd.2 e.2 + 1))) (g, d)).2 n
      = d n + ((es.filter (fun e => e.2 == n)).length : Int)) := by
  induction es generalizing g d with
  | nil => simp
  | cons e rest ih =>
    simp only [List.foldl_cons, List.filter_cons]
    obtain ⟨ih1, ih2⟩ := ih (updateFn g e.1 (g e.1 ++ [e.2])) (updateFn d e.2 (d e.2 + 1))
    constructor
    · rw [ih1]
      by_cases h : e.1 = n
      · subst h
        simp [updateFn]
      · have hb : (e.1 == n) = false := by simp [h]
        have hne : ¬ n = e.1 := fun hc => h hc.symm
        simp [updateFn, hb, hne]
    · rw [ih2]
      by_cases h : e.2 = n
      · subst h
        simp only [updateFn, if_pos rfl, beq_self_eq_true, if_true, List.length_cons]
        push_cast
        ring
      · have hb : (e.2 == n) = false := by simp [h]
        have hne : ¬ n = e.2 := fun hc => h hc.symm
        simp [updateFn, hb, hne]

theorem buildGraphMaps_fst (es : List (String × String)) (n : String) :
    (buildGraphMaps es).1 n = (es.filter (fun e => e.1 == n)).map Prod.snd := by
  have := (buildGraphMaps_go es (fun _ => []) (fun _ => 0) n).1
  simpa [buildGraphMaps] using this

theorem buildGraphMaps_snd (es : List (String × String)) (n : String) :
    (buildGraphMaps es).2 n = ((es.filter (fun e => e.2 == n)).length : Int) := by
  have := (buildGraphMaps_go es (fun _ => []) (fun _ => 0) n).2
  simpa [buildGraphMaps] using this

theorem kahnProcess_deg (ns : List String) (d : String → Int) (q : List String)
    (m : String) :
    (kahnProcess ns (d, q)).1 m = d m - (ns.count m : Int) := by
  induction ns generalizing d q with
  | nil => simp [kahnProcess]
  | cons n rest ih =>
    simp only [kahnProcess, List.foldl_cons] at *
    rw [ih]
    by_cases h : m = n
    · subst h
      rw [List.count_cons_self]
      simp only [updateFn, if_pos rfl]
      push_cast
      ring
    · rw [List.count_cons_of_ne h]
      simp [updateFn, h]

theorem kahnProcess_queue (ns : List String) (d : String → Int) (q : List String) :
    ∃ t, (kahnProcess ns (d, q)).2 = q ++ t ∧ t.Nodup ∧
      ∀ m, m ∈ t ↔ (1 ≤ d m ∧ d m ≤ (ns.count m : Int)) := by
  induction ns generalizing d q with
  | nil =>
    refine ⟨[], by simp [kahnProcess], List.nodup_nil, ?_⟩
    intro m
    simp only [List.not_mem_nil, false_iff]
    intro hc
    rw [List.count_nil] at hc
    have h1 := hc.1
    have h2 := hc.2
    push_cast at h2
    omega
  | cons n rest ih =>
    simp only [kahnProcess, List.foldl_cons] at *
    obtain ⟨t1, ht1, hnd1, hmem1⟩ :=
      ih (updateFn d n (d n - 1)) (if d n - 1 = 0 then q ++ [n] else q)
    by_cases hz : d n - 1 = 0
    · refine ⟨n :: t1, ?_, ?_, ?_⟩
      · rw [ht1, if_pos hz]
        simp
      · refine List.nodup_cons.mpr ⟨?_, hnd1⟩
        intro hc
        have h3 := (hmem1 n).mp hc
        have h4 : updateFn d n (d n - 1) n = d n - 1 := by simp [updateFn]
        rw [h4] at h3
        have h5 := h3.1
        omega
      · intro m
        by_cases hm : m = n
        · subst hm
          simp only [List.mem_cons, true_or, true_iff, List.count_cons_self]
          push_cast
          omega
        · simp only [List.mem_cons, hm, false_or]
          rw [hmem1 m]
          simp only [updateFn, if_neg hm]
          rw [List.count_cons_of_ne hm]
    · refine ⟨t1, ?_, hnd1, ?_⟩
      · rw [ht1, if_neg hz]
      · intro m
        by_cases hm : m = n
        · subst hm
          rw [hmem1 m]
          simp only [updateFn, if_pos rfl, List.count_cons_self]
          push_cast
          omega
        · rw [hmem1 m]
          simp only [updateFn, if_neg hm]
          rw [List.count_cons_of_ne hm]

/-- The number of edges into `n`. -/
def inDeg0 (E : List (String × String)) (n : String) : Int :=
  ((E.filter (fun e => e.2 == n)).length : Int)

/-- The number of edges into `n` whose source has been drained
(popped) already. -/
def fromCount (E : List (String × String)) (s : List String) (n : String) : Int :=
  ((E.filter (fun e => e.2 == n && s.contains e.1)).length : Int)

/-- The loop invariant of the Kahn drain: `q` the queue, `d` the
in-degree map, `s` the drained output so far. -/
structure KahnInv (N : List String) (E : List (String × String))
    (q : List String) (d : String → Int) (s : List String) : Prop where
  nodup : (s ++ q).Nodup
  subN : ∀ x ∈ s ++ q, x ∈ N
  deg : ∀ n, d n = inDeg0 E n - fromCount E s n
  topo : ∀ i : Fin s.length, ∀ e ∈ E, e.2 = s.get i → e.1 ∈ s.take i.1
  qdone : ∀ n ∈ q, ∀ e ∈ E, e.2 = n → e.1 ∈ s
  complete : ∀ n ∈ N, (∀ e ∈ E, e.2 = n → e.1 ∈ s) → n ∈ s ++ q

/-- The remaining work: queued nodes plus nodes not yet seen. -/
def kahnMeasure (N q s : List String) : Nat :=
  q.length + (N.filter (fun n => !(decide (n ∈ s ++ q)))).length

theorem KahnInv.sdone {N E q d s} (inv : KahnInv N E q d s) :
    ∀ n ∈ s, ∀ e ∈ E, e.2 = n → e.1 ∈ s := by
  intro n hn e he h2
  obtain ⟨i, hi⟩ := List.mem_iff_get.mp hn
  exact List.take_subset _ _ (inv.topo i e he (by rw [hi, h2]))

theorem filter_length_split {α : Type} (l : List α) (p q r : α → Bool)
    (h : ∀ e ∈ l, p e = true ↔ (q e = true ∨ r e = true))
    (hx : ∀ e ∈ l, ¬(q e = true ∧ r e = true)) :
    (l.filter p).length = (l.filter q).length + (l.filter r).length := by
  induction l with
  | nil => simp
  | cons e rest ih =>
    simp only [List.filter_cons]
    have ih' := ih (fun x hx1 => h x (List.mem_cons_of_mem _ hx1))
      (fun x hx1 => hx x (List.mem_cons_of_mem _ hx1))
    have he := h e (List.mem_cons_self _ _)
    have hxe := hx e (List.mem_cons_self _ _)
    cases hq : q e <;> cases hr : r e <;> rw [hq, hr] at he hxe
    · have hp : p e = false := by
        cases hp : p e
        · rfl
        · exact absurd (he.mp hp) (by simp)
      simp [hp, ih']
    · have hp : p e = true := he.mpr (Or.inr rfl)
      simp [hp, ih']
      omega
    · have hp : p e = true := he.mpr (Or.inl rfl)
      simp [hp, ih']
      omega
    · exact absurd ⟨rfl, rfl⟩ hxe

theorem fromCount_eq_inDeg0_of_closed (E : List (String × String)) (s : List String)
    (n : String) (h : ∀ e ∈ E, e.2 = n → e.1 ∈ s) :
    fromCount E s n = inDeg0 E n := by
  unfold fromCount inDeg0
  congr 2
  apply List.filter_congr
  intro e he
  cases h2 : (e.2 == n) with
  | false => simp
  | true =>
    have hmem : e.1 ∈ s := h e he (by simpa using h2)
    simp [hmem]

theorem fromCount_append_single (E : List (String × String)) (s : List String)
    (c : String) (hc : c ∉ s) (n : String) :
    fromCount E (s ++ [c]) n =
      fromCount E s n + ((E.filter (fun e => e.2 == n && e.1 == c)).length : Int) := by
  unfold fromCount
  rw [show ((E.filter (fun e => e.2 == n && (s ++ [c]).contains e.1)).length)
      = (E.filter (fun e => e.2 == n && s.contains e.1)).length
        + (E.filter (fun e => e.2 == n && e.1 == c)).length from ?_]
  · push_cast
    ring
  · apply filter_length_split
    · intro e _
      constructor
      · intro hp
        simp only [Bool.and_eq_true] at hp
        have hmem : e.1 ∈ s ++ [c] := by simpa using hp.2
        rcases List.mem_append.mp hmem with hs | hcc
        · exact Or.inl (by simp [hp.1, hs])
        · simp only [List.mem_singleton] at hcc
          exact Or.inr (by simp [hp.1, hcc])
      · intro hqr
        rcases hqr with hq | hr
        · simp only [Bool.and_eq_true] at hq
          have hs : e.1 ∈ s := by simpa using hq.2
          simp [hq.1, List.mem_append_left _ hs]
        · simp only [Bool.and_eq_true, beq_iff_eq] at hr
          simp [hr.1, List.mem_append_right _ (List.mem_singleton.mpr hr.2)]
    · intro e _
      rintro ⟨hq, hr⟩
      simp only [Bool.and_eq_true, beq_iff_eq] at hq hr
      have hs : e.1 ∈ s := by simpa using hq.2
      exact hc (hr.2 ▸ hs)

theorem length_filter_mem_of_nodup (N t : List String) (hN : N.Nodup)
    (htnd : t.Nodup) (htN : ∀ x ∈ t, x ∈ N) :
    (N.filter (fun n => decide (n ∈ t))).length = t.length := by
  have h1 : (N.filter (fun n => decide (n ∈ t))).Nodup := hN.filter _
  have h2 : (N.filter (fun n => decide (n ∈ t))).toFinset = t.toFinset := by
    ext x
    simp only [List.mem_toFinset, List.mem_filter, decide_eq_true_eq]
    exact ⟨fun h => h.2, fun h => ⟨htN x h, h⟩⟩
  have h3 := List.toFinset_card_of_nodup h1
  have h4 := List.toFinset_card_of_nodup htnd
  rw [h2, h4] at h3
  exact h3.symm

theorem filter_not_mem_append_length (N A t : List String) (hN : N.Nodup)
    (htnd : t.Nodup) (htN : ∀ x ∈ t, x ∈ N) (htA : ∀ x ∈ t, x ∉ A) :
    (N.filter (fun n => !(decide (n ∈ A) || decide (n ∈ t)))).length + t.length =
      (N.filter (fun n => !(decide (n ∈ A)))).length := by
  have hpart : (N.filter (fun n => !(decide (n ∈ A)))).length
      = (N.filter (fun n => !(decide (n ∈ A)) && decide (n ∈ t))).length
        + (N.filter (fun n => !(decide (n ∈ A)) && !(decide (n ∈ t)))).length := by
    apply filter_length_split
    · intro e _
      cases h1 : decide (e ∈ A) <;> cases h2 : decide (e ∈ t) <;> simp
    · intro e _
      rintro ⟨hq, hr⟩
      simp only [Bool.and_eq_true, Bool.not_eq_true] at hq hr
      rw [hq.2] at hr
      simp at hr
  have he1 : N.filter (fun n => !(decide (n ∈ A)) && decide (n ∈ t))
      = N.filter (fun n => decide (n ∈ t)) := by
    apply List.filter_congr
    intro n _
    cases h2 : decide (n ∈ t)
    · simp
    · have hnA : n ∉ A := htA n (by simpa using h2)
      simp [hnA]
  have he2 : N.filter (fun n => !(decide (n ∈ A)) && !(decide (n ∈ t)))
      = N.filter (fun n => !(decide (n ∈ A) || decide (n ∈ t))) := by
    apply List.filter_congr
    intro n _
    cases h1 : decide (n ∈ A) <;> cases h2 : decide (n ∈ t) <;> simp
  rw [he1, he2, length_filter_mem_of_nodup N t hN htnd htN] at hpart
  omega

theorem kahnInv_step (N : List String) (E : List (String × String)) (hN : N.Nodup)
    (hE : ∀ e ∈ E, e.1 ∈ N ∧ e.2 ∈ N)
    (g : String → List String)
    (hg : ∀ n, g n = (E.filter (fun e => e.1 == n)).map Prod.snd)
    (c : String) (rest : List String) (d : String → Int) (s : List String)
    (inv : KahnInv N E (c :: rest) d s) :
    KahnInv N E (kahnProcess (g c) (d, rest)).2 (kahnProcess (g c) (d, rest)).1 (s ++ [c]) ∧
    kahnMeasure N (kahnProcess (g c) (d, rest)).2 (s ++ [c]) + 1 =
      kahnMeasure N (c :: rest) s := by
  obtain ⟨t, ht, htnd, htmem⟩ := kahnProcess_queue (g c) d rest
  have hdeg' := kahnProcess_deg (g c) d rest
  have hcnt : ∀ m, ((g c).count m : Nat) =
      (E.filter (fun e => e.2 == m && e.1 == c)).length := by
    intro m
    rw [hg c, List.count_eq_countP, List.countP_map, List.countP_filter,
      List.countP_eq_length_filter]
    congr 1
  have hc_nin_s : c ∉ s := by
    have hdisj := List.disjoint_of_nodup_append inv.nodup
    intro hc
    exact hdisj hc (List.mem_cons_self c rest)
  have hcq : c ∈ c :: rest := List.mem_cons_self c rest
  have hsplit : ∀ n, inDeg0 E n = fromCount E s n
      + ((E.filter (fun e => e.2 == n && e.1 == c)).length : Int)
      + ((E.filter (fun e => e.2 == n && (!s.contains e.1 && !(e.1 == c)))).length : Int) := by
    intro n
    unfold inDeg0 fromCount
    have h1 : (E.filter (fun e => e.2 == n)).length
        = (E.filter (fun e => e.2 == n && s.contains e.1)).length
          + (E.filter (fun e => e.2 == n && !s.contains e.1)).length := by
      apply filter_length_split
      · intro e _
        cases h2 : (e.2 == n) <;> cases h3 : s.contains e.1 <;> simp [h2, h3]
      · intro e _
        rintro ⟨hq, hr⟩
        simp only [Bool.and_eq_true, Bool.not_eq_true] at hq hr
        rw [hq.2] at hr
        simp at hr
    have h2 : (E.filter (fun e => e.2 == n && !s.contains e.1)).length
        = (E.filter (fun e => e.2 == n && e.1 == c)).length
          + (E.filter (fun e => e.2 == n && (!s.contains e.1 && !(e.1 == c)))).length := by
      apply filter_length_split
      · intro e _
        cases h3 : (e.2 == n) <;> cases h4 : s.contains e.1 <;> cases h5 : (e.1 == c) <;>
          simp [h3, h4, h5]
        · have hceq : e.1 = c := by simpa using h5
          have hcs : c ∈ s := by
            rw [← hceq]
            simpa using h4
          exact hc_nin_s hcs
      · intro e _
        rintro ⟨hq, hr⟩
        simp only [Bool.and_eq_true, Bool.not_eq_true] at hq hr
        rw [hq.2] at hr
        simp at hr
    rw [h1, h2]
    push_cast
    ring
  have hT : ∀ m, m ∈ t ↔ (1 ≤ d m ∧
      d m ≤ ((E.filter (fun e => e.2 == m && e.1 == c)).length : Int)) := by
    intro m
    rw [htmem m]
    constructor
    · rintro ⟨h1, h2⟩
      rw [hcnt m] at h2
      exact ⟨h1, h2⟩
    · rintro ⟨h1, h2⟩
      rw [← hcnt m] at h2
      exact ⟨h1, h2⟩
  have hclosed_dzero : ∀ m, (∀ e ∈ E, e.2 = m → e.1 ∈ s) → d m = 0 := by
    intro m hm
    rw [inv.deg m, fromCount_eq_inDeg0_of_closed E s m hm]
    ring
  have hF3 : ∀ m ∈ t, m ∉ s ++ c :: rest := by
    intro m hm hmem
    have h1 := ((hT m).mp hm).1
    rcases List.mem_append.mp hmem with hs | hq
    · have := hclosed_dzero m (inv.sdone m hs)
      omega
    · have := hclosed_dzero m (inv.qdone m hq)
      omega
  have hF4 : ∀ m ∈ t, m ∈ N := by
    intro m hm
    obtain ⟨h1, h2⟩ := (hT m).mp hm
    have hlen : 0 < (E.filter (fun e => e.2 == m && e.1 == c)).length := by
      by_contra hcon
      push_neg at hcon
      have hz : (E.filter (fun e => e.2 == m && e.1 == c)).length = 0 :=
        Nat.le_zero.mp hcon
      rw [hz] at h2
      push_cast at h2
      omega
    obtain ⟨e, he⟩ := List.exists_mem_of_length_pos hlen
    have hef := List.mem_filter.mp he
    have he2 : e.2 = m := by
      have := hef.2
      simp only [Bool.and_eq_true, beq_iff_eq] at this
      exact this.1
    exact he2 ▸ (hE e hef.1).2
  have hshape : (s ++ [c]) ++ (rest ++ t) = (s ++ c :: rest) ++ t := by
    simp
  have hother_zero_closed : ∀ m,
      (E.filter (fun e => e.2 == m && (!s.contains e.1 && !(e.1 == c)))).length = 0 →
      ∀ e ∈ E, e.2 = m → e.1 ∈ s ∨ e.1 = c := by
    intro m hz e he h2
    by_contra hcon
    push_neg at hcon
    have hpred : (fun e => e.2 == m && (!s.contains e.1 && !(e.1 == c))) e = true := by
      have hb1 : (e.2 == m) = true := by simp [h2]
      have hb2 : s.contains e.1 = false := by
        cases hb : s.contains e.1
        · rfl
        · exact absurd (by simpa using hb) hcon.1
      have hb3 : (e.1 == c) = false := by simp [hcon.2]
      simp [hb1, hb2, hb3]
      exact hcon.1
    have : e ∈ E.filter (fun e => e.2 == m && (!s.contains e.1 && !(e.1 == c))) :=
      List.mem_filter.mpr ⟨he, hpred⟩
    rw [List.length_eq_zero] at hz
    rw [hz] at this
    simp at this
  rw [ht]
  refine ⟨⟨?_, ?_, ?_, ?_, ?_, ?_⟩, ?_⟩
  · rw [hshape]
    exact inv.nodup.append htnd (fun a ha hat => hF3 a hat ha)
  · intro x hx
    rw [hshape] at hx
    rcases List.mem_append.mp hx with h1 | h2
    · exact inv.subN x h1
    · exact hF4 x h2
  · intro n
    rw [hdeg' n, inv.deg n, fromCount_append_single E s c hc_nin_s n]
    have := hcnt n
    omega
  · intro i e he h2
    by_cases hi : i.1 < s.length
    · have hget : (s ++ [c]).get i = s.get ⟨i.1, hi⟩ := by
        rw [List.get_eq_getElem, List.get_eq_getElem, List.getElem_append_left]
      have hold := inv.topo ⟨i.1, hi⟩ e he (by rw [← hget, h2])
      have htake : (s ++ [c]).take i.1 = s.take i.1 := by
        rw [List.take_append_eq_append_take, Nat.sub_eq_zero_of_le (le_of_lt hi),
          List.take_zero, List.append_nil]
      rw [htake]
      exact hold
    · have hi2 : i.1 = s.length := by
        have := i.2
        simp only [List.length_append, List.length_singleton] at this
        omega
      have hget : (s ++ [c]).get i = c := by
        have hieq : i = ⟨s.length, by simp⟩ := by
          apply Fin.ext
          exact hi2
        rw [hieq, List.get_eq_getElem]
        simp [List.getElem_concat_length]
      have htake : (s ++ [c]).take i.1 = s := by
        rw [hi2, List.take_left]
      rw [htake]
      exact inv.qdone c hcq e he (by rw [← hget, h2])
  · intro n hn e he h2
    rcases List.mem_append.mp hn with hr | htm
    · exact List.mem_append_left _ (inv.qdone n (List.mem_cons_of_mem _ hr) e he h2)
    · obtain ⟨h1, hle⟩ := (hT n).mp htm
      have hd := inv.deg n
      rw [hsplit n] at hd
      have hoz : (E.filter (fun e => e.2 == n && (!s.contains e.1 && !(e.1 == c)))).length
          = 0 := by omega
      rcases hother_zero_closed n hoz e he h2 with hs | hc
      · exact List.mem_append_left _ hs
      · exact List.mem_append_right _ (by simp [hc])
  · intro n hnN hcl
    by_cases hn : n ∈ s ++ c :: rest
    · have : n ∈ (s ++ c :: rest) ++ t := List.mem_append_left _ hn
      rw [← hshape] at this
      exact this
    · have hin_t : n ∈ t := by
        rw [hT n]
        have hd := inv.deg n
        rw [hsplit n] at hd
        have hoz : (E.filter (fun e => e.2 == n && (!s.contains e.1 && !(e.1 == c)))).length
            = 0 := by
          rw [List.length_eq_zero, List.filter_eq_nil]
          intro e he
          cases hb1 : (e.2 == n)
          · simp
          · have h2 : e.2 = n := by simpa using hb1
            rcases List.mem_append.mp (hcl e he h2) with hs | hc
            · have : s.contains e.1 = true := by simpa using hs
              simp [this]
              intro hcon
              exact absurd hs hcon
            · simp only [List.mem_singleton] at hc
              simp [hc]
        by_cases hcz : (E.filter (fun e => e.2 == n && e.1 == c)).length = 0
        · exfalso
          apply hn
          apply inv.complete n hnN
          intro e he h2
          rcases hother_zero_closed n hoz e he h2 with hs | hc
          · exact hs
          · exfalso
            have hpred : (fun e => e.2 == n && e.1 == c) e = true := by
              simp [h2, hc]
            have hmm : e ∈ E.filter (fun e => e.2 == n && e.1 == c) :=
              List.mem_filter.mpr ⟨he, hpred⟩
            rw [List.length_eq_zero] at hcz
            rw [hcz] at hmm
            simp at hmm
        · omega
      have : n ∈ (s ++ c :: rest) ++ t := List.mem_append_right _ hin_t
      rw [← hshape] at this
      exact this
  · unfold kahnMeasure
    have hlen : (rest ++ t).length = rest.length + t.length := List.length_append _ _
    have hcong1 : N.filter (fun n => !(decide (n ∈ (s ++ [c]) ++ (rest ++ t))))
        = N.filter (fun n => !(decide (n ∈ s ++ c :: rest) || decide (n ∈ t))) := by
      apply List.filter_congr
      intro n _
      have hiff : (n ∈ (s ++ [c]) ++ (rest ++ t)) ↔ (n ∈ s ++ c :: rest ∨ n ∈ t) := by
        rw [hshape]
        exact List.mem_append
      rw [decide_eq_decide.mpr hiff, Bool.decide_or]
    rw [hcong1, hlen]
    have hkey := filter_not_mem_append_length N (s ++ c :: rest) t hN htnd hF4 hF3
    have hcl : (c :: rest).length = rest.length + 1 := rfl
    omega

theorem uniqueKeys_go (l : List String) :
    ∀ acc : List String, acc.Nodup →
      (l.foldl (fun acc x => if acc.contains x then acc else acc ++ [x]) acc).Nodup ∧
      (∀ x, x ∈ l.foldl (fun acc x => if acc.contains x then acc else acc ++ [x]) acc ↔
        x ∈ acc ∨ x ∈ l) ∧
      (l.foldl (fun acc x => if acc.contains x then acc else acc ++ [x]) acc).length ≤
        acc.length + l.length := by
  induction l with
  | nil =>
    intro acc hnd
    exact ⟨hnd, fun x => by simp, by simp⟩
  | cons a l ih =>
    intro acc hnd
    simp only [List.foldl_cons]
    by_cases hc : acc.contains a = true
    · have ha : a ∈ acc := by simpa using hc
      rw [if_pos hc]
      obtain ⟨h1, h2, h3⟩ := ih acc hnd
      refine ⟨h1, ?_, by simpa using Nat.le_succ_of_le h3⟩
      intro x
      rw [h2 x]
      constructor
      · rintro (hx | hx)
        · exact Or.inl hx
        · exact Or.inr (List.mem_cons_of_mem _ hx)
      · rintro (hx | hx)
        · exact Or.inl hx
        · rcases List.mem_cons.mp hx with rfl | hx
          · exact Or.inl ha
          · exact Or.inr hx
    · have ha : a ∉ acc := by simpa using hc
      rw [if_neg hc]
      have hnd2 : (acc ++ [a]).Nodup := by
        rw [List.nodup_append]
        refine ⟨hnd, List.nodup_singleton a, ?_⟩
        intro x hx hxa
        simp only [List.mem_singleton] at hxa
        subst hxa
        exact ha hx
      obtain ⟨h1, h2, h3⟩ := ih (acc ++ [a]) hnd2
      refine ⟨h1, ?_, ?_⟩
      · intro x
        rw [h2 x]
        constructor
        · rintro (hx | hx)
          · rcases List.mem_append.mp hx with hx | hx
            · exact Or.inl hx
            · simp only [List.mem_singleton] at hx
              exact Or.inr (hx ▸ List.mem_cons_self _ _)
          · exact Or.inr (List.mem_cons_of_mem _ hx)
        · rintro (hx | hx)
          · exact Or.inl (List.mem_append_left _ hx)
          · rcases List.mem_cons.mp hx with rfl | hx
            · exact Or.inl (List.mem_append_right _ (List.mem_singleton.mpr rfl))
            · exact Or.inr hx
      · have h4 : (acc ++ [a]).length = acc.length + 1 := by simp
        have h5 : (a :: l).length = l.length + 1 := rfl
        omega

theorem uniqueKeys_nodup (l : List String) : (uniqueKeys l).Nodup :=
  (uniqueKeys_go l [] List.nodup_nil).1

theorem mem_uniqueKeys (l : List String) (x : String) : x ∈ uniqueKeys l ↔ x ∈ l := by
  rw [uniqueKeys, (uniqueKeys_go l [] List.nodup_nil).2.1 x]
  simp

theorem uniqueKeys_length_le (l : List String) : (uniqueKeys l).length ≤ l.length := by
  have := (uniqueKeys_go l [] List.nodup_nil).2.2
  simpa [uniqueKeys] using this

theorem kahnLoop_spec (N : List String) (E : List (String × String)) (hN : N.Nodup)
    (hE : ∀ e ∈ E, e.1 ∈ N ∧ e.2 ∈ N)
    (g : String → List String)
    (hg : ∀ n, g n = (E.filter (fun e => e.1 == n)).map Prod.snd)
    (fuel : Nat) :
    ∀ q d s, KahnInv N E q d s → kahnMeasure N q s ≤ fuel →
      ∃ d2, KahnInv N E [] d2 (kahnLoop g fuel q d s) := by
  induction fuel with
  | zero =>
    intro q d s inv hm
    cases q with
    | nil => exact ⟨d, by simpa [kahnLoop] using inv⟩
    | cons c rest =>
      exfalso
      unfold kahnMeasure at hm
      simp at hm
  | succ fuel ih =>
    intro q d s inv hm
    cases q with
    | nil => exact ⟨d, by simpa [kahnLoop] using inv⟩
    | cons c rest =>
      obtain ⟨inv2, hmeas⟩ := kahnInv_step N E hN hE g hg c rest d s inv
      have hstep : kahnLoop g (fuel + 1) (c :: rest) d s =
          kahnLoop g fuel (kahnProcess (g c) (d, rest)).2 (kahnProcess (g c) (d, rest)).1
            (s ++ [c]) := rfl
      rw [hstep]
      exact ih _ _ _ inv2 (by omega)

theorem mem_planEdges (nodes : List DependencyNode) (e : String × String) :
    e ∈ planEdges nodes ↔ ∃ node ∈ nodes, e.1 ∈ node.dependencies ∧
      e.1 ∈ nodeNames nodes ∧ e.2 = node.componentName := by
  unfold planEdges
  rw [List.mem_flatMap]
  constructor
  · rintro ⟨node, hnode, hmem⟩
    rw [List.mem_filterMap] at hmem
    obtain ⟨dep, hdep, hsome⟩ := hmem
    by_cases hc : (nodeNames nodes).contains dep = true
    · rw [if_pos hc] at hsome
      rw [Option.some.injEq] at hsome
      refine ⟨node, hnode, ?_, ?_, ?_⟩
      · rw [← hsome]; exact hdep
      · rw [← hsome]; simpa using hc
      · rw [← hsome]
    · rw [if_neg hc] at hsome
      exact Option.noConfusion hsome
  · rintro ⟨node, hnode, hdep, hnm, h2⟩
    refine ⟨node, hnode, ?_⟩
    rw [List.mem_filterMap]
    refine ⟨e.1, hdep, ?_⟩
    have hc : (nodeNames nodes).contains e.1 = true := by simpa using hnm
    rw [if_pos hc]
    rw [Option.some.injEq]
    rw [← h2]

theorem fromCount_nil (E : List (String × String)) (n : String) :
    fromCount E [] n = 0 := by
  unfold fromCount
  have h : E.filter (fun e => e.2 == n && ([] : List String).contains e.1) = [] := by
    rw [List.filter_eq_nil_iff]
    intro e _
    simp [List.contains]
  rw [h]
  simp

theorem kahnInit (nodes : List DependencyNode) :
    KahnInv (uniqueKeys (nodeNames nodes)) (planEdges nodes)
      ((uniqueKeys (nodeNames nodes)).filter
        (fun n => (buildGraphMaps (planEdges nodes)).2 n = 0))
      (buildGraphMaps (planEdges nodes)).2 [] := by
  set N := uniqueKeys (nodeNames nodes) with hNdef
  set E := planEdges nodes with hEdef
  set d0 := (buildGraphMaps E).2 with hd0
  have hN : N.Nodup := uniqueKeys_nodup _
  have hdeg : ∀ n, d0 n = ((E.filter (fun e => e.2 == n)).length : Int) := by
    intro n
    rw [hd0, buildGraphMaps_snd]
  have hzero_iff : ∀ n, d0 n = 0 ↔ (∀ e ∈ E, e.2 ≠ n) := by
    intro n
    rw [hdeg n]
    constructor
    · intro hz e he h2
      have hlen : (E.filter (fun e => e.2 == n)).length = 0 := by
        exact_mod_cast hz
      rw [List.length_eq_zero] at hlen
      have : e ∈ E.filter (fun e => e.2 == n) :=
        List.mem_filter.mpr ⟨he, by simp [h2]⟩
      rw [hlen] at this
      simp at this
    · intro hno
      have hlen : E.filter (fun e => e.2 == n) = [] := by
        rw [List.filter_eq_nil_iff]
        intro e he
        have := hno e he
        simp [this]
      rw [hlen]
      simp
  constructor
  · simp only [List.nil_append]
    exact hN.filter _
  · intro x hx
    simp only [List.nil_append] at hx
    exact List.mem_of_mem_filter hx
  · intro n
    rw [fromCount_nil, hdeg n]
    unfold inDeg0
    ring
  · intro i
    exact absurd i.2 (by simp)
  · intro n hn e he h2
    exfalso
    have hz : d0 n = 0 := by
      have := List.mem_filter.mp hn
      simpa using this.2
    exact (hzero_iff n).mp hz e he h2
  · intro n hnN hcl
    simp only [List.nil_append]
    apply List.mem_filter.mpr
    refine ⟨hnN, ?_⟩
    have : d0 n = 0 := by
      rw [hzero_iff n]
      intro e he h2
      have := hcl e he h2
      simp at this
    simp [this]

theorem kahnMeasure_init (nodes : List DependencyNode) :
    kahnMeasure (uniqueKeys (nodeNames nodes))
      ((uniqueKeys (nodeNames nodes)).filter
        (fun n => (buildGraphMaps (planEdges nodes)).2 n = 0)) [] ≤ nodes.length := by
  set N := uniqueKeys (nodeNames nodes) with hNdef
  set seeds := N.filter (fun n => (buildGraphMaps (planEdges nodes)).2 n = 0) with hseeds
  have hN : N.Nodup := uniqueKeys_nodup _
  have hsnd : seeds.Nodup := hN.filter _
  have hsub : ∀ x ∈ seeds, x ∈ N := fun x hx => List.mem_of_mem_filter hx
  have hsplit : (N.filter (fun _ => true)).length
      = (N.filter (fun n => decide (n ∈ seeds))).length
        + (N.filter (fun n => !(decide (n ∈ seeds)))).length := by
    apply filter_length_split
    · intro e _
      cases h : decide (e ∈ seeds) <;> simp [h]
    · intro e _
      rintro ⟨hq, hr⟩
      rw [hq] at hr
      simp at hr
  have htrue : (N.filter (fun _ => true)).length = N.length := by
    simp
  have hmemlen : (N.filter (fun n => decide (n ∈ seeds))).length = seeds.length :=
    length_filter_mem_of_nodup N seeds hN hsnd hsub
  have hNlen : N.length ≤ nodes.length := by
    have h1 := uniqueKeys_length_le (nodeNames nodes)
    rw [← hNdef] at h1
    have h2 : (nodeNames nodes).length = nodes.length := by
      simp [nodeNames]
    omega
  unfold kahnMeasure
  have hcong : N.filter (fun n => !(decide (n ∈ [] ++ seeds)))
      = N.filter (fun n => !(decide (n ∈ seeds))) := by
    apply List.filter_congr
    intro n _
    simp
  rw [hcong]
  omega

/-- A cycle in an explicit edge list. -/
def HasCycle (E : List (String × String)) : Prop :=
  ∃ n, Relation.TransGen (fun a b => (a, b) ∈ E) n n

theorem indexOf_lt_of_mem_take (s : List String) (k : Nat) (a : String)
    (h : a ∈ s.take k) : s.indexOf a < k := by
  induction s generalizing k with
  | nil => simp at h
  | cons x xs ih =>
    cases k with
    | zero => simp at h
    | succ k =>
      rw [List.take_succ_cons] at h
      by_cases hax : a = x
      · subst hax
        simp [List.indexOf_cons_self]
      · rcases List.mem_cons.mp h with heq | h2
        · exact absurd heq hax
        · rw [List.indexOf_cons_ne xs (fun he => hax he.symm)]
          have := ih k h2
          omega

theorem topo_edge_lt (E : List (String × String)) (s : List String)
    (htopo : ∀ i : Fin s.length, ∀ e ∈ E, e.2 = s.get i → e.1 ∈ s.take i.1)
    (a b : String) (hab : (a, b) ∈ E) (hb : b ∈ s) :
    a ∈ s ∧ s.indexOf a < s.indexOf b := by
  have hlt : s.indexOf b < s.length := List.indexOf_lt_length.mpr hb
  have hget : s.get ⟨s.indexOf b, hlt⟩ = b := List.indexOf_get hlt
  have htk := htopo ⟨s.indexOf b, hlt⟩ (a, b) hab (by simpa using hget.symm)
  exact ⟨List.take_subset _ _ htk, indexOf_lt_of_mem_take s _ a htk⟩

theorem kahn_topo_noCycle (E : List (String × String)) (s : List String)
    (htopo : ∀ i : Fin s.length, ∀ e ∈ E, e.2 = s.get i → e.1 ∈ s.take i.1)
    (hE2 : ∀ e ∈ E, e.2 ∈ s) : ¬ HasCycle E := by
  have hkey : ∀ x y : String, Relation.TransGen (fun a b => (a, b) ∈ E) x y →
      x ∈ s ∧ y ∈ s ∧ s.indexOf x < s.indexOf y := by
    intro x y htg
    induction htg with
    | single h =>
      have hb := hE2 _ h
      obtain ⟨hx, hlt⟩ := topo_edge_lt E s htopo x _ h hb
      exact ⟨hx, hb, hlt⟩
    | tail htg2 h ih =>
      obtain ⟨hx, hb, hlt1⟩ := ih
      have hc := hE2 _ h
      obtain ⟨hb2, hlt2⟩ := topo_edge_lt E s htopo _ _ h hc
      exact ⟨hx, hc, lt_trans hlt1 hlt2⟩
  rintro ⟨n, htg⟩
  obtain ⟨h1, h2, hlt⟩ := hkey n n htg
  omega

theorem transGen_iterate_chain (E : List (String × String)) (f : String → String)
    (x : String) (hedge : ∀ k : Nat, (f^[k + 1] x, f^[k] x) ∈ E) :
    ∀ k : Nat, 0 < k → ∀ i : Nat,
      Relation.TransGen (fun a b => (a, b) ∈ E) (f^[i + k] x) (f^[i] x) := by
  intro k
  induction k with
  | zero => intro h; omega
  | succ k ih =>
    intro h i
    cases Nat.eq_zero_or_pos k with
    | inl hz =>
      subst hz
      exact Relation.TransGen.single (hedge i)
    | inr hpos =>
      have h1 := ih hpos (i + 1)
      have h2 : i + 1 + k = i + (k + 1) := by omega
      rw [h2] at h1
      exact Relation.TransGen.tail h1 (hedge i)

theorem kahn_complete_mem (N : List String) (E : List (String × String))
    (hE : ∀ e ∈ E, e.1 ∈ N ∧ e.2 ∈ N) (s : List String)
    (hcompl : ∀ n ∈ N, (∀ e ∈ E, e.2 = n → e.1 ∈ s) → n ∈ s)
    (hnc : ¬ HasCycle E) : ∀ n ∈ N, n ∈ s := by
  intro n0 hn0 
  by_contra hns
  set M := N.filter (fun n => !(decide (n ∈ s))) with hM
  have hmemM : ∀ m, m ∈ M ↔ m ∈ N ∧ m ∉ s := by
    intro m
    rw [hM, List.mem_filter]
    simp
  have hstep : ∀ m ∈ M, ∃ m2, m2 ∈ M ∧ (m2, m) ∈ E := by
    intro m hm
    obtain ⟨hmN, hms⟩ := (hmemM m).mp hm
    by_contra hno
    push_neg at hno
    apply hms
    apply hcompl m hmN
    intro e he h2
    by_contra hes
    have h4 := hno e.1
    have h5 : e.1 ∈ M := (hmemM e.1).mpr ⟨(hE e he).1, hes⟩
    have h6 : (e.1, m) ∈ E := by
      have : e = (e.1, m) := by
        rw [← h2]
      rw [← this]
      exact he
    exact h4 h5 h6
  obtain ⟨f, hf⟩ : ∃ f : String → String, ∀ m ∈ M, f m ∈ M ∧ (f m, m) ∈ E := by
    refine ⟨fun m => if h : m ∈ M then (hstep m h).choose else m, ?_⟩
    intro m hm
    simp only [dif_pos hm]
    exact (hstep m hm).choose_spec
  have hm0 : n0 ∈ M := (hmemM n0).mpr ⟨hn0, hns⟩
  have hiter : ∀ k : Nat, f^[k] n0 ∈ M := by
    intro k
    induction k with
    | zero => simpa using hm0
    | succ k ih =>
      rw [Function.iterate_succ_apply']
      exact (hf _ ih).1
  have hedge : ∀ k : Nat, (f^[k + 1] n0, f^[k] n0) ∈ E := by
    intro k
    rw [Function.iterate_succ_apply']
    exact (hf _ (hiter k)).2
  have hmaps : ∀ k ∈ Finset.range (M.length + 1), f^[k] n0 ∈ M.toFinset := by
    intro k _
    rw [List.mem_toFinset]
    exact hiter k
  have hcard : M.toFinset.card < (Finset.range (M.length + 1)).card := by
    rw [Finset.card_range]
    have := M.toFinset_card_le
    omega
  obtain ⟨i, hi, j, hj, hij, heq⟩ :=
    Finset.exists_ne_map_eq_of_card_lt_of_maps_to hcard hmaps
  have hcyc : HasCycle E := by
    rcases Nat.lt_or_ge i j with hlt | hge
    · refine ⟨f^[j] n0, ?_⟩
      have h1 := transGen_iterate_chain E f n0 hedge (j - i) (by omega) i
      have h2 : i + (j - i) = j := by omega
      rw [h2, heq] at h1
      exact h1
    · have hlt : j < i := by
        cases Nat.lt_or_ge j i with
        | inl h => exact h
        | inr h => exact absurd (Nat.le_antisymm hge h) (fun he => hij he.symm)
      refine ⟨f^[i] n0, ?_⟩
      have h1 := transGen_iterate_chain E f n0 hedge (i - j) (by omega) j
      have h2 : j + (i - j) = i := by omega
      rw [h2, ← heq] at h1
      exact h1
  exact hnc hcyc

theorem nodeMapFind_some (nodes : List DependencyNode) (n : String)
    (x : DependencyNode) (h : nodeMapFind nodes n = some x) :
    x.componentName = n ∧ x ∈ nodes := by
  unfold nodeMapFind at h
  have hx := List.mem_of_mem_getLast? h
  have := List.mem_filter.mp hx
  exact ⟨by simpa using this.2, this.1⟩

theorem nodeMapFind_isSome_of_mem (nodes : List DependencyNode) (n : String)
    (h : n ∈ nodeNames nodes) : (nodeMapFind nodes n).isSome := by
  unfold nodeMapFind
  apply List.getLast?_isSome.mpr
  intro hnil
  obtain ⟨x, hx, hname⟩ := List.mem_map.mp h
  have : x ∈ nodes.filter (fun y => y.componentName == n) :=
    List.mem_filter.mpr ⟨hx, by simp [hname]⟩
  rw [hnil] at this
  simp at this

theorem filterMap_all_isSome_of_length {α β : Type} (l : List α) (f : α → Option β)
    (h : (l.filterMap f).length = l.length) : ∀ x ∈ l, (f x).isSome := by
  induction l with
  | nil => intro x hx; simp at hx
  | cons a l ih =>
    intro x hx
    rw [List.filterMap_cons] at h
    cases hfa : f a with
    | none =>
      rw [hfa] at h
      have hle := List.length_filterMap_le f l
      simp only [List.length_cons] at h
      omega
    | some b =>
      rw [hfa] at h
      simp only [List.length_cons] at h
      rcases List.mem_cons.mp hx with rfl | hx2
      · simp [hfa]
      · exact ih (by omega) x hx2

theorem length_filterMap_of_all_isSome {α β : Type} (l : List α) (f : α → Option β)
    (h : ∀ x ∈ l, (f x).isSome) : (l.filterMap f).length = l.length := by
  induction l with
  | nil => simp
  | cons a l ih =>
    rw [List.filterMap_cons]
    cases hfa : f a with
    | none =>
      have := h a (List.mem_cons_self _ _)
      rw [hfa] at this
      simp at this
    | some b =>
      simp only [List.length_cons]
      rw [ih (fun x hx => h x (List.mem_cons_of_mem _ hx))]

theorem sorted_names_of_all_isSome (nodes : List DependencyNode) (l : List String)
    (h : ∀ n ∈ l, (nodeMapFind nodes n).isSome) :
    nodeNames (l.filterMap (nodeMapFind nodes)) = l := by
  induction l with
  | nil => rfl
  | cons a l ih =>
    rw [List.filterMap_cons]
    have ha := h a (List.mem_cons_self _ _)
    obtain ⟨x, hx⟩ := Option.isSome_iff_exists.mp ha
    rw [hx]
    have hname := (nodeMapFind_some nodes a x hx).1
    unfold nodeNames
    rw [List.map_cons]
    have := ih (fun n hn => h n (List.mem_cons_of_mem _ hn))
    unfold nodeNames at this
    rw [this, hname]

theorem length_eq_of_nodup_mem_iff (l1 l2 : List String) (h1 : l1.Nodup)
    (h2 : l2.Nodup) (hm : ∀ x, x ∈ l1 ↔ x ∈ l2) : l1.length = l2.length := by
  have e : l1.toFinset = l2.toFinset := Finset.ext fun x => by
    simp only [List.mem_toFinset]
    exact hm x
  rw [← List.toFinset_card_of_nodup h1, ← List.toFinset_card_of_nodup h2, e]

theorem nodup_length_le_of_subset (l1 l2 : List String) (h1 : l1.Nodup)
    (hsub : ∀ x ∈ l1, x ∈ l2) : l1.length ≤ l2.length := by
  have hc : l1.toFinset ⊆ l2.toFinset := by
    intro x hx
    rw [List.mem_toFinset] at *
    exact hsub x hx
  have := Finset.card_le_card hc
  rw [List.toFinset_card_of_nodup h1] at this
  exact le_trans this l2.toFinset_card_le

theorem bdg_run (nodes : List DependencyNode) :
    ∃ d2, KahnInv (uniqueKeys (nodeNames nodes)) (planEdges nodes) [] d2
      (kahnLoop (buildGraphMaps (planEdges nodes)).1 nodes.length
        ((uniqueKeys (nodeNames nodes)).filter
          (fun n => (buildGraphMaps (planEdges nodes)).2 n = 0))
        (buildGraphMaps (planEdges nodes)).2 []) := by
  apply kahnLoop_spec
  · exact uniqueKeys_nodup _
  · intro e he
    obtain ⟨node, hnode, hdep, hnm, h2⟩ := (mem_planEdges nodes e).mp he
    constructor
    · rw [mem_uniqueKeys]
      exact hnm
    · rw [mem_uniqueKeys, h2]
      exact List.mem_map_of_mem _ hnode
  · intro n
    rw [buildGraphMaps_fst]
  · exact kahnInit nodes
  · exact kahnMeasure_init nodes

theorem buildDependencyGraph_eq (nodes : List DependencyNode) :
    buildDependencyGraph nodes =
      (if ((kahnLoop (buildGraphMaps (planEdges nodes)).1 nodes.length
            ((uniqueKeys (nodeNames nodes)).filter
              (fun n => (buildGraphMaps (planEdges nodes)).2 n = 0))
            (buildGraphMaps (planEdges nodes)).2 []).filterMap
          (nodeMapFind nodes)).length = nodes.length
       then .ok ((kahnLoop (buildGraphMaps (planEdges nodes)).1 nodes.length
            ((uniqueKeys (nodeNames nodes)).filter
              (fun n => (buildGraphMaps (planEdges nodes)).2 n = 0))
            (buildGraphMaps (planEdges nodes)).2 []).filterMap
          (nodeMapFind nodes))
       else .error "circular dependency detected in component graph") := rfl

theorem bdg_ok_facts (nodes : List DependencyNode) (sorted : List DependencyNode)
    (hok : buildDependencyGraph nodes = .ok sorted) :
    sorted.length = nodes.length ∧
    (nodeNames sorted).Nodup ∧
    (∀ x ∈ sorted, x ∈ nodes) ∧
    (∀ n, n ∈ nodeNames sorted ↔ n ∈ nodeNames nodes) ∧
    (∀ i : Fin (nodeNames sorted).length, ∀ e ∈ planEdges nodes,
      e.2 = (nodeNames sorted).get i → e.1 ∈ (nodeNames sorted).take i.1) ∧
    ¬ HasCycle (planEdges nodes) := by
  obtain ⟨d2, inv⟩ := bdg_run nodes
  set N := uniqueKeys (nodeNames nodes) with hNdef
  set s2 := kahnLoop (buildGraphMaps (planEdges nodes)).1 nodes.length
      (N.filter (fun n => (buildGraphMaps (planEdges nodes)).2 n = 0))
      (buildGraphMaps (planEdges nodes)).2 [] with hs2
  have hnodup : s2.Nodup := by
    have := inv.nodup
    simpa using this
  have hsub : ∀ x ∈ s2, x ∈ N := by
    intro x hx
    exact inv.subN x (by simpa using hx)
  have hsorted : sorted = s2.filterMap (nodeMapFind nodes) ∧
      sorted.length = nodes.length := by
    rw [buildDependencyGraph_eq] at hok
    rw [← hNdef] at hok
    rw [← hs2] at hok
    split at hok
    · rename_i hlen
      rw [Except.ok.injEq] at hok
      exact ⟨hok.symm, hok ▸ hlen⟩
    · exact Except.noConfusion hok
  obtain ⟨hsval, hslen⟩ := hsorted
  have hNn : N.Nodup := uniqueKeys_nodup _
  have hle1 : sorted.length ≤ s2.length := by
    rw [hsval]
    exact List.length_filterMap_le _ _
  have hle2 : s2.length ≤ N.length := nodup_length_le_of_subset s2 N hnodup hsub
  have hle3 : N.length ≤ nodes.length := by
    have h1 := uniqueKeys_length_le (nodeNames nodes)
    have h2 : (nodeNames nodes).length = nodes.length := by simp [nodeNames]
    rw [← hNdef] at h1
    omega
  have hs2len : s2.length = N.length := by omega
  have hfmlen : (s2.filterMap (nodeMapFind nodes)).length = s2.length := by
    rw [← hsval]
    omega
  have hallsome : ∀ n ∈ s2, (nodeMapFind nodes n).isSome :=
    filterMap_all_isSome_of_length s2 _ hfmlen
  have hnames : nodeNames sorted = s2 := by
    rw [hsval]
    exact sorted_names_of_all_isSome nodes s2 hallsome
  have hNmem : ∀ n, n ∈ N ↔ n ∈ s2 := by
    intro n
    constructor
    · intro hn
      have hfin : s2.toFinset = N.toFinset := by
        apply Finset.eq_of_subset_of_card_le
        · intro x hx
          rw [List.mem_toFinset] at *
          exact hsub x hx
        · rw [List.toFinset_card_of_nodup hNn, List.toFinset_card_of_nodup hnodup]
          omega
      have : n ∈ s2.toFinset := by
        rw [hfin, List.mem_toFinset]
        exact hn
      rw [List.mem_toFinset] at this
      exact this
    · exact hsub n
  have hmemiff : ∀ n, n ∈ nodeNames sorted ↔ n ∈ nodeNames nodes := by
    intro n
    rw [hnames, ← hNmem n, hNdef, mem_uniqueKeys]
  have htopo : ∀ i : Fin (nodeNames sorted).length, ∀ e ∈ planEdges nodes,
      e.2 = (nodeNames sorted).get i → e.1 ∈ (nodeNames sorted).take i.1 := by
    rw [hnames]
    exact inv.topo
  refine ⟨hslen, hnames ▸ hnodup, ?_, hmemiff, htopo, ?_⟩
  · intro x hx
    rw [hsval] at hx
    obtain ⟨n, hn, hsome⟩ := List.mem_filterMap.mp hx
    exact (nodeMapFind_some nodes n x hsome).2
  · apply kahn_topo_noCycle (planEdges nodes) s2 (hnames ▸ htopo)
    intro e he
    obtain ⟨node, hnode, hdep, hnm, h2⟩ := (mem_planEdges nodes e).mp he
    rw [← hNmem]
    rw [hNdef, mem_uniqueKeys, h2]
    exact List.mem_map_of_mem _ hnode

theorem bdg_complete (nodes : List DependencyNode)
    (hnd : (nodeNames nodes).Nodup)
    (hnc : ¬ HasCycle (planEdges nodes)) :
    ∃ sorted, buildDependencyGraph nodes = .ok sorted := by
  obtain ⟨d2, inv⟩ := bdg_run nodes
  set N := uniqueKeys (nodeNames nodes) with hNdef
  set s2 := kahnLoop (buildGraphMaps (planEdges nodes)).1 nodes.length
      (N.filter (fun n => (buildGraphMaps (planEdges nodes)).2 n = 0))
      (buildGraphMaps (planEdges nodes)).2 [] with hs2
  have hnodup : s2.Nodup := by
    have := inv.nodup
    simpa using this
  have hsub : ∀ x ∈ s2, x ∈ N := by
    intro x hx
    exact inv.subN x (by simpa using hx)
  have hNsub : ∀ n ∈ N, n ∈ s2 := by
    apply kahn_complete_mem N (planEdges nodes) ?_ s2 ?_ hnc
    · intro e he
      obtain ⟨node, hnode, hdep, hnm, h2⟩ := (mem_planEdges nodes e).mp he
      constructor
      · rw [hNdef, mem_uniqueKeys]
        exact hnm
      · rw [hNdef, mem_uniqueKeys, h2]
        exact List.mem_map_of_mem _ hnode
    · intro n hn hcl
      have := inv.complete n hn hcl
      simpa using this
  have hNn : N.Nodup := uniqueKeys_nodup _
  have hs2len : s2.length = N.length :=
    length_eq_of_nodup_mem_iff s2 N hnodup hNn (fun x => ⟨hsub x, hNsub x⟩)
  have hNlen : N.length = nodes.length := by
    have h1 : N.length = (nodeNames nodes).length := by
      apply length_eq_of_nodup_mem_iff N (nodeNames nodes) hNn hnd
      intro x
      rw [hNdef, mem_uniqueKeys]
    have h2 : (nodeNames nodes).length = nodes.length := by simp [nodeNames]
    omega
  have hallsome : ∀ n ∈ s2, (nodeMapFind nodes n).isSome := by
    intro n hn
    apply nodeMapFind_isSome_of_mem
    rw [← mem_uniqueKeys, ← hNdef]
    exact hsub n hn
  have hfmlen : (s2.filterMap (nodeMapFind nodes)).length = nodes.length := by
    rw [length_filterMap_of_all_isSome s2 _ hallsome]
    omega
  refine ⟨s2.filterMap (nodeMapFind nodes), ?_⟩
  rw [buildDependencyGraph_eq]
  rw [← hNdef]
  rw [← hs2]
  rw [if_pos hfmlen]

theorem bdg_cycle_error (nodes : List DependencyNode)
    (hcyc : HasCycle (planEdges nodes)) :
    buildDependencyGraph nodes =
      .error "circular dependency detected in component graph" := by
  cases hb : buildDependencyGraph nodes with
  | ok sorted =>
    exact absurd hcyc (bdg_ok_facts nodes sorted hb).2.2.2.2.2
  | error e =>
    have he : e = "circular dependency detected in component graph" := by
      rw [buildDependencyGraph_eq] at hb
      split at hb
      · exact Except.noConfusion hb
      · rw [Except.error.injEq] at hb
        exact hb.symm
    rw [he]

theorem bdg_nocycle_ok (nodes : List DependencyNode)
    (hnd : (nodeNames nodes).Nodup)
    (hnc : ¬ HasCycle (planEdges nodes)) :
    ∃ sorted, buildDependencyGraph nodes = .ok sorted ∧
      (nodeNames sorted).Perm (nodeNames nodes) := by
  obtain ⟨sorted, hok⟩ := bdg_complete nodes hnd hnc
  obtain ⟨hlen, hnodup2, hmem2, hmemiff, htopo2, hnc2⟩ := bdg_ok_facts nodes sorted hok
  refine ⟨sorted, hok, ?_⟩
  apply List.perm_of_nodup_nodup_toFinset_eq hnodup2 hnd
  apply Finset.ext
  intro x
  simp only [List.mem_toFinset]
  exact hmemiff x

theorem generatePlan_cycle_error (registry : ProviderRegistry) (req : PlanRequest)
    (intents : List Repository) (now : String) (nodes : List DependencyNode)
    (hexp : expandComponents registry (detectChanges intents req.changedFiles) intents req
      = .ok nodes)
    (hne : ¬(req.changedOnly && (detectChanges intents req.changedFiles).isEmpty) = true)
    (hcyc : HasCycle (planEdges nodes)) :
    generatePlan registry req intents now =
      .error "dependency graph construction failed: circular dependency detected in component graph" := by
  simp only [generatePlan]
  rw [if_neg hne]
  simp only [hexp]
  simp only [bdg_cycle_error nodes hcyc]
  rfl

/-- A two-node dependency cycle: `A` depends on `B` and `B` on `A`. -/
def c2nodes : List DependencyNode :=
  [{ componentName := "A", provider := "p", actions := ["validate"],
     dependencies := ["B"] },
   { componentName := "B", provider := "p", actions := ["validate"],
     dependencies := ["A"] }]

/-- **C2.** If the dependency edges among the changed components
(restricted to dependencies that are themselves nodes) contain a cycle,
`buildDependencyGraph` fails with exactly the error `"circular
dependency detected in component graph"` and `GeneratePlan` propagates
it (wrapped as `"dependency graph construction failed: ..."`), emitting
no plan; if there is no cycle, the Kahn sort outputs every node (the
sorted names are a permutation of the node names) and planning
proceeds with the sorted list. -/
theorem c2_cycle_detection (nodes : List DependencyNode)
    (hnd : (nodeNames nodes).Nodup) :
    (HasCycle (planEdges nodes) →
      buildDependencyGraph nodes =
        .error "circular dependency detected in component graph") ∧
    (¬ HasCycle (planEdges nodes) →
      ∃ sorted, buildDependencyGraph nodes = .ok sorted ∧
        (nodeNames sorted).Perm (nodeNames nodes)) ∧
    (∀ (registry : ProviderRegistry) (req : PlanRequest)
        (intents : List Repository) (now : String),
      expandComponents registry (detectChanges intents req.changedFiles) intents req
          = .ok nodes →
      ¬(req.changedOnly && (detectChanges intents req.changedFiles).isEmpty) = true →
      HasCycle (planEdges nodes) →
      generatePlan registry req intents now =
        .error "dependency graph construction failed: circular dependency detected in component graph") := by
  refine ⟨fun hcyc => bdg_cycle_error nodes hcyc,
          fun hnc => bdg_nocycle_ok nodes hnd hnc,
          fun registry req intents now hexp hne hcyc =>
            generatePlan_cycle_error registry req intents now nodes hexp hne hcyc⟩

theorem c2_cycle_detection_witness :
    (nodeNames c2nodes).Nodup ∧
    buildDependencyGraph c2nodes =
      .error "circular dependency detected in component graph" :=
  ⟨by decide, (c2_cycle_detection c2nodes (by decide)).1 ⟨"A", by
    have h1 : ("A", "B") ∈ planEdges c2nodes := by decide
    have h2 : ("B", "A") ∈ planEdges c2nodes := by decide
    exact Relation.TransGen.tail (Relation.TransGen.single h1) h2⟩⟩

/-! ## Job sequence well-formedness (spec invariants I2 and I3) -/

/-- The id sequence of a job list. -/
def jobIds (jobs : List Job) : List String := jobs.map (fun j => j.id)

/-- Spec invariant I2: every dependsOn entry of a job names a strictly
earlier job of the sequence. -/
def WellFormedJobSeq (jobs : List Job) : Prop :=
  ∀ i (hi : i < jobs.length), ∀ dep ∈ (jobs.get ⟨i, hi⟩).dependsOn,
    dep ∈ jobIds (jobs.take i)

theorem first_sep_inj {α : Type} (d : α) :
    ∀ (u1 : List α) (u2 v1 v2 : List α), u1 ++ d :: v1 = u2 ++ d :: v2 →
      d ∉ u1 → d ∉ u2 → u1 = u2 ∧ v1 = v2 := by
  intro u1
  induction u1 with
  | nil =>
    intro u2 v1 v2 h h1 h2
    cases u2 with
    | nil =>
      simp only [List.nil_append, List.cons.injEq] at h
      exact ⟨rfl, h.2⟩
    | cons b u2 =>
      simp only [List.nil_append, List.cons_append, List.cons.injEq] at h
      exact absurd (h.1 ▸ List.mem_cons_self b u2) (h.1 ▸ h2)
  | cons a u1 ih =>
    intro u2 v1 v2 h h1 h2
    cases u2 with
    | nil =>
      simp only [List.cons_append, List.nil_append, List.cons.injEq] at h
      exact absurd (List.mem_cons_self a u1) (h.1 ▸ h1)
    | cons b u2 =>
      simp only [List.cons_append, List.cons.injEq] at h
      obtain ⟨hab, htail⟩ := h
      have h1t : d ∉ u1 := fun hc => h1 (List.mem_cons_of_mem _ hc)
      have h2t : d ∉ u2 := fun hc => h2 (List.mem_cons_of_mem _ hc)
      obtain ⟨hu, hv⟩ := ih u2 v1 v2 htail h1t h2t
      exact ⟨by rw [hab, hu], hv⟩

theorem last_sep_inj {α : Type} (d : α) (l1 r1 l2 r2 : List α)
    (h : l1 ++ d :: r1 = l2 ++ d :: r2) (h1 : d ∉ r1) (h2 : d ∉ r2) :
    l1 = l2 ∧ r1 = r2 := by
  have hrev : r1.reverse ++ d :: l1.reverse = r2.reverse ++ d :: l2.reverse := by
    have := congrArg List.reverse h
    simpa [List.reverse_append] using this
  have h1r : d ∉ r1.reverse := by simpa using h1
  have h2r : d ∉ r2.reverse := by simpa using h2
  obtain ⟨hr, hl⟩ := first_sep_inj d r1.reverse r2.reverse l1.reverse l2.reverse hrev h1r h2r
  constructor
  · have := congrArg List.reverse hl
    simpa using this
  · have := congrArg List.reverse hr
    simpa using this

theorem dash_id_inj (n1 a1 n2 a2 : String)
    (h1 : ('-' : Char) ∉ a1.data) (h2 : ('-' : Char) ∉ a2.data)
    (he : n1 ++ "-" ++ a1 = n2 ++ "-" ++ a2) : n1 = n2 ∧ a1 = a2 := by
  have hd : n1.data ++ '-' :: a1.data = n2.data ++ '-' :: a2.data := by
    have := congrArg String.data he
    simpa [String.data_append] using this
  obtain ⟨hn, ha⟩ := last_sep_inj '-' n1.data a1.data n2.data a2.data hd h1 h2
  exact ⟨String.ext hn, String.ext ha⟩

theorem jobsForNode_ids (registry : ProviderRegistry) (nodes : List DependencyNode)
    (req : PlanRequest) (node : DependencyNode) (p : ProviderMetadata)
    (hprov : getProvider registry node.provider = .ok p) :
    jobIds (jobsForNode registry nodes req node)
      = node.actions.map (fun a => node.componentName ++ "-" ++ a) := by
  unfold jobsForNode jobIds
  rw [hprov]
  rw [List.map_map]
  have hrhs : node.actions.map (fun a => node.componentName ++ "-" ++ a)
      = node.actions.enum.map (fun ia => node.componentName ++ "-" ++ ia.2) := by
    conv_lhs => rw [← List.enum_map_snd node.actions]
    rw [List.map_map]
    rfl
  rw [hrhs]
  apply List.map_congr_left
  intro ia _
  rfl

theorem jobsForNode_length (registry : ProviderRegistry) (nodes : List DependencyNode)
    (req : PlanRequest) (node : DependencyNode) (p : ProviderMetadata)
    (hprov : getProvider registry node.provider = .ok p) :
    (jobsForNode registry nodes req node).length = node.actions.length := by
  unfold jobsForNode
  rw [hprov]
  simp [List.enum_length]

theorem jobsForNode_get (registry : ProviderRegistry) (nodes : List DependencyNode)
    (req : PlanRequest) (node : DependencyNode) (p : ProviderMetadata)
    (hprov : getProvider registry node.provider = .ok p)
    (i : Nat) (hi : i < node.actions.length) :
    ∃ j, (jobsForNode registry nodes req node).get? i = some j ∧
      j.id = node.componentName ++ "-" ++ node.actions.get ⟨i, hi⟩ ∧
      j.component = node.componentName ∧
      j.dependsOn = (if 0 < i then
          [node.componentName ++ "-" ++ node.actions.get ⟨i - 1, by omega⟩]
        else node.dependencies.filterMap (fun depComp =>
          match findNode depComp nodes with
          | some depNode =>
            match depNode.actions.getLast? with
            | some lastAction => some (depComp ++ "-" ++ lastAction)
            | none => none
          | none => none)) := by
  unfold jobsForNode
  rw [hprov]
  simp only []
  have ha : node.actions[i]? = some (node.actions.get ⟨i, hi⟩) := by
    rw [List.getElem?_eq_getElem hi]
    rfl
  have hget : ∀ g : Nat × String → Job,
      (node.actions.enum.map g).get? i = some (g (i, node.actions.get ⟨i, hi⟩)) := by
    intro g
    rw [List.get?_eq_getElem?, List.getElem?_map, List.getElem?_enum, ha]
    rfl
  refine ⟨_, hget _, rfl, rfl, ?_⟩
  by_cases hi0 : 0 < i
  · rw [if_pos hi0, if_pos hi0]
    have hprev : node.actions.get? (i - 1) = some (node.actions.get ⟨i - 1, by omega⟩) := by
      rw [List.get?_eq_getElem?, List.getElem?_eq_getElem (by omega)]
      rfl
    show (match node.actions.get? (i - 1) with
      | some prevAction => [node.componentName ++ "-" ++ prevAction]
      | none => []) = _
    rw [hprev]
  · rw [if_neg hi0, if_neg hi0]

theorem findNode_some (name : String) (nodes : List DependencyNode)
    (x : DependencyNode) (h : findNode name nodes = some x) :
    x.componentName = name ∧ x ∈ nodes := by
  unfold findNode at h
  have h1 := List.find?_some h
  have h2 := List.mem_of_find?_eq_some h
  exact ⟨by simpa using h1, h2⟩

theorem mem_prefix_of_name_mem (dn r : List DependencyNode) (x : DependencyNode)
    (hnd : (nodeNames (dn ++ r)).Nodup) (hx : x ∈ dn ++ r)
    (hname : x.componentName ∈ nodeNames dn) : x ∈ dn := by
  rcases List.mem_append.mp hx with h | h
  · exact h
  · exfalso
    have h2 : x.componentName ∈ nodeNames r := List.mem_map_of_mem _ h
    have h3 : nodeNames (dn ++ r) = nodeNames dn ++ nodeNames r := by
      simp [nodeNames]
    rw [h3] at hnd
    exact (List.disjoint_of_nodup_append hnd) hname h2

theorem okChain_append (done blk : List Job)
    (h1 : WellFormedJobSeq done)
    (h2 : ∀ k (hk : k < blk.length), ∀ dep ∈ (blk.get ⟨k, hk⟩).dependsOn,
      dep ∈ jobIds done ∨ dep ∈ jobIds (blk.take k)) :
    WellFormedJobSeq (done ++ blk) := by
  intro i hi dep hdep
  by_cases hilt : i < done.length
  · have hgeteq : (done ++ blk).get ⟨i, hi⟩ = done.get ⟨i, hilt⟩ := by
      rw [List.get_eq_getElem, List.get_eq_getElem, List.getElem_append_left]
    rw [hgeteq] at hdep
    have hin := h1 i hilt dep hdep
    have htk : (done ++ blk).take i = done.take i := by
      rw [List.take_append_eq_append_take, Nat.sub_eq_zero_of_le (le_of_lt hilt),
        List.take_zero, List.append_nil]
    rw [htk]
    exact hin
  · push_neg at hilt
    have hk : i - done.length < blk.length := by
      have h4 := hi
      simp only [List.length_append] at h4
      omega
    have hgeteq : (done ++ blk).get ⟨i, hi⟩ = blk.get ⟨i - done.length, hk⟩ := by
      rw [List.get_eq_getElem, List.get_eq_getElem, List.getElem_append_right hilt]
    rw [hgeteq] at hdep
    have hres := h2 (i - done.length) hk dep hdep
    have htk : (done ++ blk).take i = done ++ blk.take (i - done.length) := by
      rw [List.take_append_eq_append_take, List.take_all_of_le hilt]
    rw [htk]
    unfold jobIds
    rw [List.map_append]
    rcases hres with h | h
    · exact List.mem_append_left _ h
    · exact List.mem_append_right _ h

theorem jobIds_flatMap (registry : ProviderRegistry) (nodes : List DependencyNode)
    (req : PlanRequest) (dn : List DependencyNode)
    (hprovs : ∀ x ∈ dn, ∃ p, getProvider registry x.provider = .ok p) :
    jobIds (dn.flatMap (jobsForNode registry nodes req))
      = dn.flatMap (fun n => n.actions.map (fun a => n.componentName ++ "-" ++ a)) := by
  unfold jobIds
  rw [List.map_flatMap]
  apply List.flatMap_congr
  intro x hx
  obtain ⟨p, hp⟩ := hprovs x hx
  have := jobsForNode_ids registry nodes req x p hp
  unfold jobIds at this
  exact this

theorem generateJobs_wf (registry : ProviderRegistry) (req : PlanRequest)
    (nodes0 sorted : List DependencyNode)
    (hnodup : (nodeNames sorted).Nodup)
    (hmemsub : ∀ x ∈ sorted, x ∈ nodes0)
    (hmemiff : ∀ n, n ∈ nodeNames sorted → n ∈ nodeNames nodes0)
    (htopo : ∀ i : Fin (nodeNames sorted).length, ∀ e ∈ planEdges nodes0,
      e.2 = (nodeNames sorted).get i → e.1 ∈ (nodeNames sorted).take i.1)
    (hprovs : ∀ x ∈ sorted, ∃ p, getProvider registry x.provider = .ok p)
    (hact : ∀ x ∈ sorted, x.actions.Nodup ∧ ∀ a ∈ x.actions, ('-' : Char) ∉ a.data) :
    WellFormedJobSeq (generateJobs registry sorted req) ∧
    (jobIds (generateJobs registry sorted req)).Nodup := by
  have haux : ∀ r dn, dn ++ r = sorted →
      (WellFormedJobSeq (dn.flatMap (jobsForNode registry sorted req)) ∧
        (jobIds (dn.flatMap (jobsForNode registry sorted req))).Nodup) →
      WellFormedJobSeq (sorted.flatMap (jobsForNode registry sorted req)) ∧
      (jobIds (sorted.flatMap (jobsForNode registry sorted req))).Nodup := by
    intro r
    induction r with
    | nil =>
      intro dn hdn hP
      rw [List.append_nil] at hdn
      subst hdn
      exact hP
    | cons cur r ih =>
      intro dn hdn hP
      subst hdn
      have hcur : cur ∈ dn ++ cur :: r :=
        List.mem_append_right _ (List.mem_cons_self _ _)
      obtain ⟨p, hp⟩ := hprovs cur hcur
      have hnames2 : nodeNames (dn ++ cur :: r)
          = nodeNames dn ++ cur.componentName :: nodeNames r := by
        simp [nodeNames]
      have hlen_dn : (nodeNames dn).length = dn.length := by simp [nodeNames]
      have hposlt : dn.length < (nodeNames (dn ++ cur :: r)).length := by
        rw [hnames2, List.length_append, List.length_cons]
        omega
      have hgetcur : (nodeNames (dn ++ cur :: r)).get ⟨dn.length, hposlt⟩
          = cur.componentName := by
        rw [List.get_eq_getElem, List.getElem_of_eq hnames2,
          List.getElem_append_right
            (by show (nodeNames dn).length ≤ dn.length; omega)]
        simp [hlen_dn]
      have hcuract := hact cur hcur
      have hdisjnames := List.disjoint_of_nodup_append (hnames2 ▸ hnodup)
      have hstep : WellFormedJobSeq
            ((dn.flatMap (jobsForNode registry (dn ++ cur :: r) req))
              ++ jobsForNode registry (dn ++ cur :: r) req cur) ∧
          (jobIds ((dn.flatMap (jobsForNode registry (dn ++ cur :: r) req))
              ++ jobsForNode registry (dn ++ cur :: r) req cur)).Nodup := by
        constructor
        · apply okChain_append _ _ hP.1
          intro k hk dep hdep
          have hk2 : k < cur.actions.length := by
            rw [← jobsForNode_length registry _ req cur p hp]
            exact hk
          obtain ⟨j, hj, hjid, hjcomp, hjdeps⟩ :=
            jobsForNode_get registry _ req cur p hp k hk2
          have hjeq : (jobsForNode registry (dn ++ cur :: r) req cur).get ⟨k, hk⟩ = j := by
            have h2 := hj
            rw [List.get?_eq_get hk] at h2
            exact Option.some.inj h2
          rw [hjeq, hjdeps] at hdep
          by_cases hk0 : 0 < k
          · rw [if_pos hk0] at hdep
            simp only [List.mem_singleton] at hdep
            right
            subst hdep
            have hids1 : jobIds ((jobsForNode registry (dn ++ cur :: r) req cur).take k)
                = (cur.actions.take k).map
                    (fun a => cur.componentName ++ "-" ++ a) := by
              unfold jobIds
              rw [List.map_take]
              have := jobsForNode_ids registry (dn ++ cur :: r) req cur p hp
              unfold jobIds at this
              rw [this, ← List.map_take]
            rw [hids1]
            apply List.mem_map.mpr
            refine ⟨cur.actions.get ⟨k - 1, by omega⟩, ?_, rfl⟩
            have hlt : k - 1 < (cur.actions.take k).length := by
              rw [List.length_take]
              omega
            have hgt : (cur.actions.take k).get ⟨k - 1, hlt⟩
                = cur.actions.get ⟨k - 1, by omega⟩ := by
              rw [List.get_eq_getElem, List.get_eq_getElem]
              exact List.getElem_take _
            have hmem : (cur.actions.take k).get ⟨k - 1, hlt⟩ ∈ cur.actions.take k :=
              List.get_mem _ _ hlt
            rw [hgt] at hmem
            exact hmem
          · rw [if_neg hk0] at hdep
            left
            obtain ⟨depComp, hdc, hfm⟩ := List.mem_filterMap.mp hdep
            cases hfn : findNode depComp (dn ++ cur :: r) with
            | none =>
              simp only [hfn] at hfm
              exact Option.noConfusion hfm
            | some depNode =>
              simp only [hfn] at hfm
              cases hgl : depNode.actions.getLast? with
              | none =>
                simp only [hgl] at hfm
                exact Option.noConfusion hfm
              | some la =>
                simp only [hgl, Option.some.injEq] at hfm
                obtain ⟨hname, hdnmem⟩ := findNode_some _ _ _ hfn
                have hdc_names : depComp ∈ nodeNames (dn ++ cur :: r) := by
                  rw [← hname]
                  exact List.mem_map_of_mem _ hdnmem
                have hedge : (depComp, cur.componentName) ∈ planEdges nodes0 :=
                  (mem_planEdges nodes0 _).mpr
                    ⟨cur, hmemsub cur hcur, hdc, hmemiff depComp hdc_names, rfl⟩
                have htk := htopo ⟨dn.length, hposlt⟩ (depComp, cur.componentName)
                  hedge (by simpa using hgetcur.symm)
                have htake_names : (nodeNames (dn ++ cur :: r)).take dn.length
                    = nodeNames dn := by
                  rw [hnames2, ← hlen_dn, List.take_left]
                rw [htake_names] at htk
                have hdepNode_dn : depNode ∈ dn :=
                  mem_prefix_of_name_mem dn (cur :: r) depNode hnodup hdnmem
                    (by rw [hname]; exact htk)
                rw [jobIds_flatMap registry _ req dn
                  (fun x hx => hprovs x (List.mem_append_left _ hx))]
                apply List.mem_flatMap.mpr
                refine ⟨depNode, hdepNode_dn, ?_⟩
                rw [← hfm]
                apply List.mem_map.mpr
                exact ⟨la, List.mem_of_mem_getLast? hgl, by rw [hname]⟩
        · have hidsapp : jobIds
              ((dn.flatMap (jobsForNode registry (dn ++ cur :: r) req))
                ++ jobsForNode registry (dn ++ cur :: r) req cur)
              = jobIds (dn.flatMap (jobsForNode registry (dn ++ cur :: r) req))
                ++ jobIds (jobsForNode registry (dn ++ cur :: r) req cur) := by
            unfold jobIds
            rw [List.map_append]
          rw [hidsapp]
          apply List.Nodup.append hP.2
          · rw [jobsForNode_ids registry _ req cur p hp]
            apply (List.nodup_map_iff_inj_on hcuract.1).mpr
            intro a ha b hb heq
            exact (dash_id_inj _ _ _ _ (hcuract.2 a ha) (hcuract.2 b hb) heq).2
          · intro x hx hx2
            rw [jobIds_flatMap registry _ req dn
              (fun y hy => hprovs y (List.mem_append_left _ hy))] at hx
            obtain ⟨n, hn, hx⟩ := List.mem_flatMap.mp hx
            obtain ⟨a, ha, hxa⟩ := List.mem_map.mp hx
            rw [jobsForNode_ids registry _ req cur p hp] at hx2
            obtain ⟨b, hb, hxb⟩ := List.mem_map.mp hx2
            have hnact := hact n (List.mem_append_left _ hn)
            have heq : n.componentName ++ "-" ++ a
                = cur.componentName ++ "-" ++ b := by rw [hxa, ← hxb]
            have := (dash_id_inj _ _ _ _ (hnact.2 a ha) (hcuract.2 b hb) heq).1
            apply hdisjnames (a := cur.componentName)
            · rw [← this]
              exact List.mem_map_of_mem _ hn
            · exact List.mem_cons_self _ _
      apply ih (dn ++ [cur]) (by simp)
      constructor
      · have hfm : (dn ++ [cur]).flatMap (jobsForNode registry (dn ++ cur :: r) req)
            = (dn.flatMap (jobsForNode registry (dn ++ cur :: r) req))
              ++ jobsForNode registry (dn ++ cur :: r) req cur := by
          rw [List.flatMap_append]
          simp
        rw [hfm]
        exact hstep.1
      · have hfm : (dn ++ [cur]).flatMap (jobsForNode registry (dn ++ cur :: r) req)
            = (dn.flatMap (jobsForNode registry (dn ++ cur :: r) req))
              ++ jobsForNode registry (dn ++ cur :: r) req cur := by
          rw [List.flatMap_append]
          simp
        rw [hfm]
        exact hstep.2
  have hbase : WellFormedJobSeq (([] : List DependencyNode).flatMap
        (jobsForNode registry sorted req)) ∧
      (jobIds (([] : List DependencyNode).flatMap (jobsForNode registry sorted req))).Nodup := by
    constructor
    · intro i hi dep hdep
      simp at hi
    · simp [jobIds]
  have := haux sorted [] rfl hbase
  unfold generateJobs
  exact this

theorem expandComponents_nodes (registry : ProviderRegistry)
    (changes : List ComponentChange) (intents : List Repository) (req : PlanRequest)
    (nodes : List DependencyNode)
    (h : expandComponents registry changes intents req = .ok nodes) :
    ∀ node ∈ nodes, ∃ p, getProvider registry node.provider = .ok p ∧
      node.actions = determineActions req.mode p := by
  induction changes generalizing nodes with
  | nil =>
    unfold expandComponents at h
    rw [Except.ok.injEq] at h
    subst h
    intro node hnode
    simp at hnode
  | cons change rest ih =>
    unfold expandComponents at h
    cases hgp : getProvider registry change.provider with
    | error e =>
      simp only [hgp] at h
      exact Except.noConfusion h
    | ok pm =>
      simp only [hgp] at h
      cases hfc : findComponent change.componentName intents with
      | none =>
        simp only [hfc] at h
        exact Except.noConfusion h
      | some comp =>
        simp only [hfc] at h
        cases hrec : expandComponents registry rest intents req with
        | error e =>
          simp only [hrec] at h
          exact Except.noConfusion h
        | ok ns =>
          simp only [hrec, Except.ok.injEq] at h
          subst h
          intro node hnode
          rcases List.mem_cons.mp hnode with rfl | hmem
          · exact ⟨pm, hgp, rfl⟩
          · exact ih ns hrec node hmem

theorem determineActions_wf (mode : String) (p : ProviderMetadata) :
    (determineActions mode p).Nodup ∧
    ∀ a ∈ determineActions mode p, ('-' : Char) ∉ a.data := by
  unfold determineActions
  dsimp only []
  split_ifs <;> refine ⟨?_, ?_⟩ <;> decide

/-- **C1.** Every plan returned by `GeneratePlan` has a well-formed job
sequence: each `dependsOn` entry of a job is the id of a job strictly
earlier in the emitted array (spec invariant I2), and the job ids are
pairwise distinct (spec invariant I3). -/
theorem c1_plan_jobs_wellformed (registry : ProviderRegistry) (req : PlanRequest)
    (intents : List Repository) (now : String) (plan : Plan)
    (h : generatePlan registry req intents now = .ok plan) :
    WellFormedJobSeq plan.jobs ∧ (jobIds plan.jobs).Nodup := by
  simp only [generatePlan] at h
  split at h
  · rw [Except.ok.injEq] at h
    subst h
    constructor
    · intro i hi dep hdep
      simp [createEmptyPlan] at hi
    · simp [createEmptyPlan, jobIds]
  · cases hexp : expandComponents registry (detectChanges intents req.changedFiles)
        intents req with
    | error e =>
      simp only [hexp] at h
      exact Except.noConfusion h
    | ok nodes =>
      simp only [hexp] at h
      cases hbd : buildDependencyGraph nodes with
      | error e =>
        simp only [hbd] at h
        exact Except.noConfusion h
      | ok sorted =>
        simp only [hbd, Except.ok.injEq] at h
        subst h
        obtain ⟨hslen, hnodup, hmemsub, hmemiff, htopo, hnc⟩ :=
          bdg_ok_facts nodes sorted hbd
        have hexpnodes := expandComponents_nodes registry _ intents req nodes hexp
        have hjobs : WellFormedJobSeq (generateJobs registry sorted req) ∧
            (jobIds (generateJobs registry sorted req)).Nodup := by
          apply generateJobs_wf registry req nodes sorted hnodup hmemsub
            (fun n hn => (hmemiff n).mp hn) htopo
          · intro x hx
            obtain ⟨p, hp, hact⟩ := hexpnodes x (hmemsub x hx)
            exact ⟨p, hp⟩
          · intro x hx
            obtain ⟨p, hp, hact⟩ := hexpnodes x (hmemsub x hx)
            rw [hact]
            exact determineActions_wf req.mode p
        exact hjobs

/-- A provider `tf` with `validate` and `plan` actions. -/
def c1prov : ProviderMetadata :=
  { name := "tf"
    version := "1"
    thinCI :=
      { actions :=
          [{ name := "validate", description := "", order := 1, jobTemplate := [],
             commands := [], preSteps := [], postSteps := [], inputs := [], outputs := [] },
           { name := "plan", description := "", order := 2, jobTemplate := [],
             commands := [], preSteps := [], postSteps := [], inputs := [], outputs := [] }]
        defaults := []
        ordering := [] } }

/-- An intent with components `a` and `b`, where `b` depends on `a`. -/
def c1intent : Repository :=
  { metadataName := "i1"
    components := [{ name := "a", ctype := "tf.net", spec := [] },
                   { name := "b", ctype := "tf.app", spec := [] }]
    relationships := [{ src := "b", dst := "a", rtype := "depends_on" }] }

/-- A plan request in `plan` mode over a changed intent file. -/
def c1request : PlanRequest :=
  { baseRef := "main", headRef := "HEAD", changedFiles := ["intent.yaml"],
    repositoryPath := ".", intentFiles := [], target := "github", mode := "plan",
    changedOnly := true, environment := "", providerOverrides := [] }

/-- The plan the pipeline produces on the C1 example inputs. -/
def c1plan : Plan :=
  (generatePlan [("tf", c1prov)] c1request [c1intent] "t0").toOption.getD
    (createEmptyPlan c1request "t0")

theorem c1_plan_jobs_wellformed_witness :
    generatePlan [("tf", c1prov)] c1request [c1intent] "t0" = .ok c1plan ∧
    (WellFormedJobSeq c1plan.jobs ∧ (jobIds c1plan.jobs).Nodup) :=
  ⟨rfl, c1_plan_jobs_wellformed [("tf", c1prov)] c1request [c1intent] "t0" c1plan rfl⟩

/-! ## Claim C3: dependsOn wiring of emitted jobs -/

/-- A provider `pd` supporting only `apply` (so mode `plan` yields an
empty action list). -/
def c3provD : ProviderMetadata :=
  { name := "pd"
    version := "1"
    thinCI :=
      { actions :=
          [{ name := "apply", description := "", order := 1, jobTemplate := [],
             commands := [], preSteps := [], postSteps := [], inputs := [], outputs := [] }]
        defaults := []
        ordering := [] } }

/-- A provider `pc` supporting only `validate`. -/
def c3provC : ProviderMetadata :=
  { name := "pc"
    version := "1"
    thinCI :=
      { actions :=
          [{ name := "validate", description := "", order := 1, jobTemplate := [],
             commands := [], preSteps := [], postSteps := [], inputs := [], outputs := [] }]
        defaults := []
        ordering := [] } }

/-- An intent with components `d` and `c`, where `c` depends on `d`. -/
def c3intent : Repository :=
  { metadataName := "i3"
    components := [{ name := "d", ctype := "pd.x", spec := [] },
                   { name := "c", ctype := "pc.y", spec := [] }]
    relationships := [{ src := "c", dst := "d", rtype := "depends_on" }] }

/-- A plan request in `plan` mode over a changed intent file. -/
def c3request : PlanRequest :=
  { baseRef := "main", headRef := "HEAD", changedFiles := ["intent.yaml"],
    repositoryPath := ".", intentFiles := [], target := "github", mode := "plan",
    changedOnly := true, environment := "", providerOverrides := [] }

/-- C3 counterexample: `c` declares a dependency on `d`, and `d` *is*
in the changed node set (both components are marked changed), yet the
first-action job of `c` carries no dependsOn entry, because `d`
supports no action under mode `plan` and its action list is empty —
contradicting "one dependsOn entry per declared dependency component
that is itself in the changed node set". -/
theorem c3_counterexample :
    (detectChanges [c3intent] ["intent.yaml"]).map (fun ch => ch.componentName)
      = ["d", "c"] ∧
    extractDependencies { name := "c", ctype := "pc.y", spec := [] } [c3intent]
      = ["d"] ∧
    (generatePlan [("pd", c3provD), ("pc", c3provC)] c3request [c3intent]
        "t0").toOption.map (fun p => p.jobs.map (fun j => (j.id, j.dependsOn)))
      = some [("c-validate", [])] :=
  ⟨rfl, rfl, rfl⟩

/-- **C3** (amended).  For a node emitted with provider metadata `p`
and action list `[a_1, …, a_n]`: the job for `a_i` with `i > 1`
depends exactly on the job id of `a_(i-1)` of the same component
(never a cross-component id), and the job for `a_1` carries one
dependsOn entry per declared dependency that is a node of the sorted
node list *with a non-empty action list* — namely that node's
last-action job id; a declared dependency that is not a node, or whose
action list is empty, contributes no entry. -/
theorem c3_dependency_rule (registry : ProviderRegistry) (nodes : List DependencyNode)
    (req : PlanRequest) (node : DependencyNode) (p : ProviderMetadata)
    (hprov : getProvider registry node.provider = .ok p)
    (i : Nat) (hi : i < node.actions.length) :
    ∃ j, (jobsForNode registry nodes req node).get? i = some j ∧
      (0 < i → j.dependsOn
        = [node.componentName ++ "-" ++ node.actions.get ⟨i - 1, by omega⟩]) ∧
      (i = 0 → j.dependsOn
        = node.dependencies.filterMap (fun depComp =>
            match findNode depComp nodes with
            | some depNode =>
              match depNode.actions.getLast? with
              | some lastAction => some (depComp ++ "-" ++ lastAction)
              | none => none
            | none => none)) := by
  obtain ⟨j, hj, hjid, hjcomp, hjdeps⟩ :=
    jobsForNode_get registry nodes req node p hprov i hi
  refine ⟨j, hj, ?_, ?_⟩
  · intro hi0
    rw [hjdeps, if_pos hi0]
  · intro hi0
    rw [hjdeps, if_neg (by omega)]

/-- A two-action node used to witness the amended C3 rule. -/
def c3wnode : DependencyNode :=
  { componentName := "n", provider := "tf", actions := ["validate", "plan"],
    dependencies := [] }

theorem c3_dependency_rule_witness :
    ∃ j, (jobsForNode [("tf", c1prov)] [c3wnode] c3request c3wnode).get? 1 = some j ∧
      (0 < 1 → j.dependsOn
        = [c3wnode.componentName ++ "-" ++ c3wnode.actions.get ⟨1 - 1, by decide⟩]) ∧
      (1 = 0 → j.dependsOn
        = c3wnode.dependencies.filterMap (fun depComp =>
            match findNode depComp [c3wnode] with
            | some depNode =>
              match depNode.actions.getLast? with
              | some lastAction => some (depComp ++ "-" ++ lastAction)
              | none => none
            | none => none)) :=
  c3_dependency_rule [("tf", c1prov)] [c3wnode] c3request c3wnode c1prov rfl 1 (by decide)

end Sourceplane
